import Mathlib

/-!
Verification development for the ORION MCP client
(`src/mcp_client/client.py`, `src/mcp_client/utils/resolver.py`,
`src/mcp_client/utils/results_file.py`, `src/mcp_client/main.py`).

JSON values are embedded as `JVal`; Python dicts are association lists
with insertion-order semantics (first occurrence wins on lookup, value
replaced in place on assignment), matching CPython dict behaviour.
Fallible Python code (statements that can raise) is embedded in
`Except String`.
-/

/-- JSON value, the data the resolver operates on.  Numbers are modelled
as integers (the schemas involved use only integral numbers); keys of
JSON objects are strings, as in JSON and in `json.loads` output. -/
inductive JVal where
  | null : JVal
  | bool : Bool → JVal
  | num : Int → JVal
  | str : String → JVal
  | arr : List JVal → JVal
  | obj : List (String × JVal) → JVal
  deriving Repr

/-- Python truthiness of a JSON value (`if not input_schema`, `if base`). -/
def truthy : JVal → Bool
  | .null => false
  | .bool b => b
  | .num n => n != 0
  | .str s => s != ""
  | .arr xs => !xs.isEmpty
  | .obj kvs => !kvs.isEmpty

/-- `d.get(k)`: first entry with the given key. -/
def jget (kvs : List (String × JVal)) (k : String) : Option JVal :=
  match kvs.find? (fun kv => kv.1 == k) with
  | some kv => some kv.2
  | none => none

/-- `k in d` for a dict. -/
def hasKey (kvs : List (String × JVal)) (k : String) : Bool :=
  (jget kvs k).isSome

/-- `d[k] = v`: replace the value at the first occurrence of `k`,
or append the entry when the key is absent (CPython dict assignment). -/
def setKey : List (String × JVal) → String → JVal → List (String × JVal)
  | [], k, v => [(k, v)]
  | kv :: rest, k, v =>
      if kv.1 == k then (k, v) :: rest else kv :: setKey rest k v

/-- `d.setdefault(k, v)`: insert only when the key is absent. -/
def setDefault (kvs : List (String × JVal)) (k : String) (v : JVal) :
    List (String × JVal) :=
  if hasKey kvs k then kvs else kvs ++ [(k, v)]

/-- `d1.update(d2)` on a fresh copy of `d1`: values of shared keys are
replaced in place, new keys of `d2` are appended in order. -/
def dictUpdate (d1 d2 : List (String × JVal)) : List (String × JVal) :=
  d1.map (fun kv => (kv.1, (jget d2 kv.1).getD kv.2)) ++
    d2.filter (fun kv => !hasKey d1 kv.1)

/-- One element of the iterable handed to `dict()` / `dict.update()`: a
key-value pair.  A two-element list yields its two members, a two-character
string yields its two characters, a two-key dict yields its two keys
(CPython iteration semantics); other shapes raise.  Python would accept a
non-string first member (e.g. `[5, "x"]`) and build a non-string-keyed
dict, which a JSON object cannot represent; those are modelled as errors. -/
def pyPair : JVal → Except String (String × JVal)
  | .arr [k, v] =>
      match k with
      | .str s => .ok (s, v)
      | _ => .error "TypeError: unhashable or non-string pair key"
  | .arr _ => .error "ValueError: dictionary update sequence element has bad length"
  | .str s =>
      match s.data with
      | [c1, c2] => .ok (String.mk [c1], .str (String.mk [c2]))
      | _ => .error "ValueError: dictionary update sequence element has bad length"
  | .obj [a, b] => .ok (a.1, .str b.1)
  | .obj _ => .error "ValueError: dictionary update sequence element has bad length"
  | _ => .error "TypeError: cannot convert dictionary update sequence element"

/-- The pairs of a `dict()` iterable argument, elementwise, stopping at
the first raising element. -/
def pyPairs : List JVal → Except String (List (String × JVal))
  | [] => .ok []
  | x :: rest =>
      match pyPair x with
      | .error e => .error e
      | .ok kv =>
          match pyPairs rest with
          | .error e => .error e
          | .ok kvs => .ok (kv :: kvs)

/-- Build a dict from a pair sequence: first occurrence fixes the position,
later occurrences of a key overwrite the value (CPython). -/
def pyBuildDict (pairs : List (String × JVal)) : List (String × JVal) :=
  pairs.foldl (fun acc kv => setKey acc kv.1 kv.2) []

/-- `dict(x)`, which is also the semantics of updating an empty dict with
`x`: a mapping is copied, any other iterable must consist of key-value
pairs, anything else raises. -/
def pyDict : JVal → Except String (List (String × JVal))
  | .obj kvs => .ok kvs
  | .str s =>
      if s == "" then .ok []
      else .error "ValueError: dictionary update sequence element has bad length"
  | .arr xs =>
      match pyPairs xs with
      | .error e => .error e
      | .ok pairs => .ok (pyBuildDict pairs)
  | _ => .error "TypeError: object is not iterable"

/-- `isinstance(option, dict) and option.get("type") == "null"`. -/
def isNullOption : JVal → Bool
  | .obj okvs =>
      match jget okvs "type" with
      | some (.str s) => s == "null"
      | _ => false
  | _ => false

/-- Split a character list on a separator character, keeping empty
components, exactly as Python str.split with an explicit separator. -/
def splitOnChar (c : Char) : List Char → List (List Char)
  | [] => [[]]
  | x :: xs =>
      match splitOnChar c xs with
      | y :: ys => if x == c then [] :: y :: ys else (x :: y) :: ys
      | [] => if x == c then [[], []] else [[x]]

/-- `ref_value.split("/")[-1]`. -/
def lastComponent (s : String) : String :=
  match (splitOnChar (Char.ofNat 47) s.data).reverse with
  | x :: _ => String.mk x
  | [] => ""

/-- Is the first list a prefix of the second, by Boolean comparison. -/
def listPrefix : List Char → List Char → Bool
  | [], _ => true
  | _ :: _, [] => false
  | x :: xs, y :: ys => x == y && listPrefix xs ys

/-- Substring test on character lists: Python `needle in haystack`. -/
def listInfix (n : List Char) : List Char → Bool
  | [] => listPrefix n []
  | x :: xs => listPrefix n (x :: xs) || listInfix n xs

/-- `ref_key in defs`: key membership for a dict, substring membership for
a string, element membership for a list; `in` raises on the rest. -/
def memTest : JVal → String → Except String Bool
  | .obj kvs, k => .ok (hasKey kvs k)
  | .str s, k => .ok (listInfix k.data s.data)
  | .arr xs, k =>
      .ok (xs.any (fun x => match x with | .str s => s == k | _ => false))
  | _, _ => .error "TypeError: argument of this type is not iterable"

/-- `defs[ref_key]`: subscription with a string key, defined for dicts. -/
def indexJ : JVal → String → Except String JVal
  | .obj kvs, k =>
      match jget kvs k with
      | some v => .ok v
      | none => .error "KeyError"
  | _, _ => .error "TypeError: indices must be integers"

/-- `normalize_any_of` from resolver.py, on the entries of a schema node:
Gemini requires anyOf to be the only key at its level.  A union of exactly
one non-null option and at least one null option collapses to that option
merged with the other parent keys plus `nullable: true`; otherwise `anyOf`
is kept as the sole key, after `title`/`description` are pushed into each
dict option that lacks them. -/
def normalize_any_of (schema_dict : List (String × JVal)) : Except String JVal :=
  match (jget schema_dict "anyOf").getD .null with
  | .arr options =>
      let meta := schema_dict.filter (fun kv => !(kv.1 == "anyOf"))
      let cleaned_options := options
      let non_null_options := cleaned_options.filter (fun o => !isNullOption o)
      let has_null := non_null_options.length != cleaned_options.length
      if has_null && non_null_options.length == 1 then
        match non_null_options with
        | [o] =>
            match pyDict o with
            | .error e => .error e
            | .ok merged =>
                let merged :=
                  dictUpdate merged (meta.filter (fun kv => !(kv.1 == "anyOf")))
                .ok (.obj (setKey merged "nullable" (.bool true)))
        | _ => .error "unreachable: length-one filter result"
      else
        let transferable :=
          meta.filter (fun kv => kv.1 == "title" || kv.1 == "description")
        let options2 := cleaned_options.map (fun o =>
          match o with
          | .obj okvs =>
              JVal.obj (transferable.foldl (fun acc kv => setDefault acc kv.1 kv.2) okvs)
          | _ => o)
        .ok (.obj [("anyOf", .arr options2)])
  | v => .ok (.obj [("anyOf", v)])

/-- First component of the termination measure of `resolve`: the number of
`$defs` keys not currently in the `resolving` set. -/
def defsOut (defs : JVal) (R : List String) : Nat :=
  match defs with
  | .obj kvs => (kvs.filter (fun kv => !(R.contains kv.1))).length
  | _ => 0

theorem filter_length_le_of_imp {A : Type} (l : List A) (p q : A → Bool)
    (h : ∀ a, p a = true → q a = true) :
    (l.filter p).length ≤ (l.filter q).length := by
  induction l with
  | nil => simp
  | cons hd tl ih =>
      rw [List.filter_cons, List.filter_cons]
      cases hp : p hd
      · cases hq : q hd
        · simpa using ih
        · simp only [Bool.false_eq_true, if_false, if_true]
          simp only [List.length_cons]
          omega
      · rw [h hd hp]
        simp only [if_true, List.length_cons]
        omega

theorem filter_length_lt_of_witness {A : Type} (l : List A) (p q : A → Bool)
    (h : ∀ a, p a = true → q a = true)
    (a : A) (ha : a ∈ l) (hpa : p a = false) (hqa : q a = true) :
    (l.filter p).length < (l.filter q).length := by
  induction l with
  | nil => cases ha
  | cons hd tl ih =>
      rw [List.filter_cons, List.filter_cons]
      rcases List.mem_cons.mp ha with heq | htl
      · subst heq
        rw [hpa, hqa]
        simp only [Bool.false_eq_true, if_false, if_true, List.length_cons]
        have := filter_length_le_of_imp tl p q h
        omega
      · cases hp : p hd
        · cases hq : q hd
          · simpa using ih htl
          · simp only [Bool.false_eq_true, if_false, if_true, List.length_cons]
            have := filter_length_le_of_imp tl p q h
            have := ih htl
            omega
        · rw [h hd hp]
          simp only [if_true, List.length_cons]
          have := ih htl
          omega

theorem hasKey_mem (kvs : List (String × JVal)) (k : String)
    (hk : hasKey kvs k = true) : ∃ kv, kv ∈ kvs ∧ (kv.1 == k) = true := by
  induction kvs with
  | nil => simp [hasKey, jget] at hk
  | cons hd tl ih =>
      cases hb : (hd.1 == k)
      · have hk2 : hasKey tl k = true := by
          simp only [hasKey, jget, List.find?, hb] at hk ⊢
          exact hk
        obtain ⟨kv, hmem, hkv⟩ := ih hk2
        exact ⟨kv, List.mem_cons_of_mem _ hmem, hkv⟩
      · exact ⟨hd, List.mem_cons_self _ _, hb⟩

theorem defsOut_insert_lt (kvs : List (String × JVal)) (k : String) (R : List String)
    (hk : hasKey kvs k = true) (hR : R.contains k = false) :
    (kvs.filter (fun kv => !((k :: R).contains kv.1))).length <
      (kvs.filter (fun kv => !(R.contains kv.1))).length := by
  obtain ⟨kv, hmem, hkv⟩ := hasKey_mem kvs k hk
  have hkeq : kv.1 = k := by simpa using hkv
  refine filter_length_lt_of_witness _ _ _ ?himp kv hmem ?hp ?hq
  case himp =>
    intro a hpa
    rw [List.contains_cons] at hpa
    cases hc : (R.contains a.1)
    · rfl
    · rw [hc, Bool.or_true] at hpa
      cases hpa
  case hp =>
    rw [List.contains_cons, hkv, Bool.true_or]
    rfl
  case hq =>
    rw [hkeq, hR]
    rfl

/-- Decision taken by the `$ref` handling at a dict node: raise, leave
`base` empty, or resolve the referenced `$defs` entry (adding its key to
the `resolving` set).  A ref is followed exactly when its value is
truthy, a string, starts with `"#/$defs/"`, and its final path component
is not currently being resolved and is found in `defs`; a truthy
non-string ref raises at `.startswith`, and the `in`/`[]` operations on a
malformed `defs` may raise. -/
inductive RefStep where
  | err : String → RefStep
  | nobase : RefStep
  | recurse : String → JVal → RefStep
  deriving Repr

/-- The `$ref` handling of `resolve` on a dict node's entries. -/
def refDecision (defs : JVal) (R : List String) (kvs : List (String × JVal)) :
    RefStep :=
  match jget kvs "$ref" with
  | some rv =>
      if truthy rv then
        match rv with
        | .str s =>
            if listPrefix ("#/$defs/".data) s.data then
              let k := lastComponent s
              if R.contains k then .nobase
              else
                match memTest defs k with
                | .error e => .err e
                | .ok false => .nobase
                | .ok true =>
                    match indexJ defs k with
                    | .error e => .err e
                    | .ok dv => .recurse k dv
            else .nobase
        | _ => .err "AttributeError: ref value has no attribute startswith"
      else .nobase
  | none => .nobase

/-- After the ref and the entries of a dict node are resolved: when
`base` is truthy, a fresh dict is updated with `base` and then with the
resolved entries; a node left with an `anyOf` key goes through
`normalize_any_of`. -/
def mergeStep (base : JVal) (resolved : List (String × JVal)) :
    Except String JVal :=
  if truthy base then
    match pyDict base with
    | .error e => .error e
    | .ok baseEntries =>
        let merged := dictUpdate baseEntries resolved
        if hasKey merged "anyOf" then normalize_any_of merged
        else .ok (.obj merged)
  else
    if hasKey resolved "anyOf" then normalize_any_of resolved
    else .ok (.obj resolved)

theorem refDecision_recurse_lt (defs : JVal) (R : List String)
    (kvs : List (String × JVal)) (k : String) (dv : JVal)
    (h : refDecision defs R kvs = .recurse k dv) :
    defsOut defs (k :: R) < defsOut defs R := by
  cases hg : jget kvs "$ref" with
  | none => simp [refDecision, hg] at h
  | some rv =>
      cases ht : truthy rv with
      | false => simp [refDecision, hg, ht] at h
      | true =>
          cases rv with
          | null => simp [truthy] at ht
          | bool b => simp [refDecision, hg, ht] at h
          | num n => simp [refDecision, hg, ht] at h
          | arr a => simp [refDecision, hg, ht] at h
          | obj o => simp [refDecision, hg, ht] at h
          | str s =>
              cases hs : listPrefix ("#/$defs/".data) s.data with
              | false => simp [refDecision, hg, ht, hs] at h
              | true =>
                  cases hc : R.contains (lastComponent s) with
                  | true =>
                      have hmem : lastComponent s ∈ R := by simpa using hc
                      simp [refDecision, hg, ht, hs, hmem] at h
                  | false =>
                      have hmem : ¬(lastComponent s ∈ R) := by simpa using hc
                      cases hm : memTest defs (lastComponent s) with
                      | error e => simp [refDecision, hg, ht, hs, hmem, hm] at h
                      | ok b =>
                          cases b with
                          | false => simp [refDecision, hg, ht, hs, hmem, hm] at h
                          | true =>
                              cases hi : indexJ defs (lastComponent s) with
                              | error e =>
                                  simp [refDecision, hg, ht, hs, hmem, hm, hi] at h
                              | ok dv2 =>
                                  simp only [refDecision, hg, ht, hs, hm, hi,
                                    if_true] at h
                                  rw [hc] at h
                                  simp only [Bool.false_eq_true, if_false] at h
                                  obtain ⟨hk, hdv⟩ := RefStep.recurse.inj h
                                  subst hk
                                  cases defs with
                                  | obj dkvs =>
                                      simp only [defsOut]
                                      apply defsOut_insert_lt
                                      · simp only [indexJ] at hi
                                        cases hj : jget dkvs (lastComponent s) with
                                        | none => rw [hj] at hi; cases hi
                                        | some v => simp [hasKey, hj]
                                      · exact hc
                                  | null => simp [indexJ] at hi
                                  | bool bb => simp [indexJ] at hi
                                  | num nn => simp [indexJ] at hi
                                  | str ss => simp [indexJ] at hi
                                  | arr aa => simp [indexJ] at hi

mutual

/-- The inner `resolve` of `resolve_genai_schema` on a node: on a dict,
the `$ref` is handled first (`refDecision`, recursing into the `$defs`
entry when inlineable), then every entry except `$defs`/`$ref` is
resolved, and the node is merged and normalized (`mergeStep`); a list is
resolved element-wise; every other value is returned unchanged.  `R` is
the `resolving` set, threaded as a parameter (the Python code mutates a
set around the ref recursion). -/
def resolveNode (defs : JVal) (R : List String) (node : JVal) : Except String JVal :=
  match node with
  | .obj kvs =>
      match hD : refDecision defs R kvs with
      | .err e => .error e
      | .nobase =>
          match resolveEntries defs R kvs with
          | .error e => .error e
          | .ok resolved => mergeStep (.obj []) resolved
      | .recurse k dv =>
          match resolveNode defs (k :: R) dv with
          | .error e => .error e
          | .ok base =>
              match resolveEntries defs R kvs with
              | .error e => .error e
              | .ok resolved => mergeStep base resolved
  | .arr xs =>
      match resolveItems defs R xs with
      | .error e => .error e
      | .ok ys => .ok (.arr ys)
  | other => .ok other
termination_by (defsOut defs R, sizeOf node)
decreasing_by
  all_goals simp_wf
  all_goals first
    | exact Prod.Lex.left _ _ (refDecision_recurse_lt _ _ _ _ _ (by assumption))
    | exact refDecision_recurse_lt _ _ _ _ _ (by assumption)
    | decreasing_tactic

/-- Entry-wise resolution of a dict node: `$defs` and `$ref` keys are
skipped, every other value is resolved in place. -/
def resolveEntries (defs : JVal) (R : List String) (kvs : List (String × JVal)) :
    Except String (List (String × JVal)) :=
  match kvs with
  | [] => .ok []
  | (k, v) :: rest =>
      if k == "$defs" || k == "$ref" then resolveEntries defs R rest
      else
        match resolveNode defs R v with
        | .error e => .error e
        | .ok v2 =>
            match resolveEntries defs R rest with
            | .error e => .error e
            | .ok rest2 => .ok ((k, v2) :: rest2)
termination_by (defsOut defs R, sizeOf kvs)

/-- Element-wise resolution of a list node. -/
def resolveItems (defs : JVal) (R : List String) (xs : List JVal) :
    Except String (List JVal) :=
  match xs with
  | [] => .ok []
  | x :: rest =>
      match resolveNode defs R x with
      | .error e => .error e
      | .ok y =>
          match resolveItems defs R rest with
          | .error e => .error e
          | .ok ys => .ok (y :: ys)
termination_by (defsOut defs R, sizeOf xs)

end

def resolve_genai_schema (input_schema : JVal) : Except String JVal :=
  if truthy input_schema then
    match input_schema with
    | .obj kvs =>
        let defs := (jget kvs "$defs").getD (.obj [])
        match resolveNode defs [] (.obj kvs) with
        | .error e => .error e
        | .ok flattened =>
            match flattened with
            | .obj fk => .ok (.obj (fk.filter (fun kv => !(kv.1 == "$defs"))))
            | other => .ok other
    | _ => .error "AttributeError: object has no attribute get"
  else .ok .null

/-- A content block of an Anthropic message, as the repair pass reads it:
only the block's `type` is inspected; `bid` carries the correlation id
(`id` of a tool_use, `tool_use_id` of a tool_result).  A list item that
is not a dict, or a dict without a `type`, behaves like a block whose
`btype` matches no block type. -/
structure Blk where
  btype : String
  bid : String
  deriving DecidableEq, Repr

/-- Message content: plain text or a list of typed blocks.  The repair
pass treats any non-list content as having no blocks. -/
inductive MContent where
  | text : String → MContent
  | blocks : List Blk → MContent
  deriving DecidableEq, Repr

/-- A conversation message as the repair pass reads it.  A dict without
a `role` key behaves like one whose role is neither user nor
assistant. -/
structure Msg where
  role : String
  content : MContent
  deriving DecidableEq, Repr

/-- `MCPClient._message_has_block`: the content is a list and some block
in it has the given type. -/
def message_has_block (m : Msg) (block_type : String) : Bool :=
  match m.content with
  | .blocks bs => bs.any (fun b => b.btype == block_type)
  | _ => false

/-- An assistant message carrying a `tool_use` block (the condition that
sets the pending flag in `_repair_anthropic_messages`). -/
def isATU (m : Msg) : Bool :=
  m.role == "assistant" && message_has_block m "tool_use"

/-- The loop of `_repair_anthropic_messages`, with the `repaired` list
accumulated in reverse (Python appends at the end and `pop()`s the last
element).  `pending` is the pending-tool-use flag: when it is set and the
current message has no `tool_result` block, the previously appended
message is popped; at the end of the loop a still-pending flag pops the
trailing message. -/
def repairGo : List Msg → List Msg → Bool → List Msg
  | [], acc, pending =>
      (if pending && !acc.isEmpty then acc.tail else acc).reverse
  | m :: rest, acc, pending =>
      let acc1 :=
        if pending && !(message_has_block m "tool_result") && !acc.isEmpty
        then acc.tail else acc
      repairGo rest (m :: acc1) (isATU m)

/-- `MCPClient._repair_anthropic_messages` on the Anthropic path (for the
other providers the method returns without touching the conversation, and
it returns immediately on an empty conversation, which the loop also
leaves unchanged). -/
def repair (msgs : List Msg) : List Msg :=
  repairGo msgs [] false

/-- Pairwise characterization of the repair loop: a message is dropped
exactly when it is an assistant tool_use turn whose immediate successor
lacks a `tool_result` block, or is a trailing assistant tool_use turn. -/
def repairPW : List Msg → List Msg
  | [] => []
  | [m] => if isATU m then [] else [m]
  | m :: n :: rest =>
      if isATU m && !(message_has_block n "tool_result")
      then repairPW (n :: rest)
      else m :: repairPW (n :: rest)

theorem repairGo_eq (msgs : List Msg) : ∀ (acc : List Msg) (m : Msg),
    repairGo msgs (m :: acc) (isATU m) = acc.reverse ++ repairPW (m :: msgs) := by
  induction msgs with
  | nil =>
      intro acc m
      cases hA : isATU m
      · simp [repairGo, repairPW, hA]
      · simp [repairGo, repairPW, hA]
  | cons n rest ih =>
      intro acc m
      cases hA : isATU m
      · cases hN : message_has_block n "tool_result"
        · simp only [repairGo, repairPW, hA, hN, Bool.false_and, Bool.and_false,
            Bool.false_eq_true, if_false, Bool.not_false, Bool.and_true]
          rw [ih (m :: acc) n]
          try simp [repairPW, hA, hN]
        · simp only [repairGo, repairPW, hA, hN, Bool.false_and, Bool.and_false,
            Bool.false_eq_true, if_false, Bool.not_true]
          rw [ih (m :: acc) n]
          try simp [repairPW, hA, hN]
      · cases hN : message_has_block n "tool_result"
        · simp only [repairGo, repairPW, hA, hN, Bool.true_and, Bool.not_false,
            List.isEmpty_cons, Bool.and_true, if_true, List.tail_cons]
          rw [ih acc n]
          try simp [repairPW, hA, hN]
        · simp only [repairGo, repairPW, hA, hN, Bool.true_and, Bool.not_true,
            Bool.false_and, Bool.false_eq_true, if_false]
          rw [ih (m :: acc) n]
          try simp [repairPW, hA, hN]

theorem repair_eq_pw (msgs : List Msg) : repair msgs = repairPW msgs := by
  cases msgs with
  | nil => rfl
  | cons m rest =>
      have h := repairGo_eq rest [] m
      simpa [repair, repairGo] using h

/-- A conversation on which the repair loop is a no-op: every assistant
tool_use turn is immediately followed by a message with a `tool_result`
block, and no trailing assistant tool_use turn remains. -/
def goodB : List Msg → Bool
  | [] => true
  | [m] => !isATU m
  | m :: n :: rest =>
      (!(isATU m) || message_has_block n "tool_result") && goodB (n :: rest)

theorem repairPW_of_goodB (msgs : List Msg) (h : goodB msgs = true) :
    repairPW msgs = msgs := by
  induction msgs with
  | nil => rfl
  | cons m tail ih =>
      cases tail with
      | nil =>
          simp only [goodB] at h
          have h2 : isATU m = false := by simpa using h
          simp [repairPW, h2]
      | cons n rest =>
          simp only [goodB, Bool.and_eq_true] at h
          obtain ⟨h1, h2⟩ := h
          have h3 : (isATU m && !(message_has_block n "tool_result")) = false := by
            cases hA : isATU m
            · rfl
            · rw [hA] at h1
              simp only [Bool.not_true, Bool.false_or] at h1
              rw [h1]
              rfl
          simp only [repairPW, h3, Bool.false_eq_true, if_false]
          rw [ih h2]

theorem repairPW_cons_of_not_atu (n : Msg) (rest : List Msg)
    (h : isATU n = false) : repairPW (n :: rest) = n :: repairPW rest := by
  cases rest with
  | nil => simp [repairPW, h]
  | cons r rs => simp [repairPW, h]

/-- A message does not mix the two block types: it does not carry both a
`tool_use` and a `tool_result` block. -/
def noMixed (m : Msg) : Prop :=
  ¬(message_has_block m "tool_use" = true ∧ message_has_block m "tool_result" = true)

instance (m : Msg) : Decidable (noMixed m) := by
  unfold noMixed
  infer_instance

theorem goodB_repairPW (msgs : List Msg) (h : ∀ m ∈ msgs, noMixed m) :
    goodB (repairPW msgs) = true := by
  induction msgs with
  | nil => rfl
  | cons m tail ih =>
      have htail : ∀ x ∈ tail, noMixed x := fun x hx => h x (List.mem_cons_of_mem _ hx)
      cases tail with
      | nil =>
          cases hA : isATU m
          · simp [repairPW, hA, goodB]
          · simp [repairPW, hA, goodB]
      | cons n rest =>
          cases hdrop : (isATU m && !(message_has_block n "tool_result"))
          · have hkeep : repairPW (m :: n :: rest) = m :: repairPW (n :: rest) := by
              simp [repairPW, hdrop]
            rw [hkeep]
            have hgood : goodB (repairPW (n :: rest)) = true := ih htail
            cases hA : isATU m
            · cases hR : repairPW (n :: rest) with
              | nil => simp [goodB, hA]
              | cons x xs =>
                  rw [hR] at hgood
                  simp [goodB, hA, hgood]
            · have hres : message_has_block n "tool_result" = true := by
                rw [hA] at hdrop
                simp only [Bool.true_and, Bool.not_eq_false'] at hdrop
                exact hdrop
              have hnuse : message_has_block n "tool_use" = false := by
                have hx := h n (List.mem_cons_of_mem _ (List.mem_cons_self _ _))
                unfold noMixed at hx
                cases hu : message_has_block n "tool_use"
                · rfl
                · exact absurd ⟨hu, hres⟩ hx
              have hAn : isATU n = false := by
                unfold isATU
                rw [hnuse]
                simp
              have hhead : repairPW (n :: rest) = n :: repairPW rest :=
                repairPW_cons_of_not_atu n rest hAn
              rw [hhead]
              rw [hhead] at hgood
              simp [goodB, hA, hres, hgood]
          · have hdrop2 : repairPW (m :: n :: rest) = repairPW (n :: rest) := by
              simp [repairPW, hdrop]
            rw [hdrop2]
            exact ih htail

/-- A plain user text message. -/
def uHi : Msg := ⟨"user", .text "hi"⟩

/-- An assistant turn carrying a tool_use block with id A. -/
def aToolUse : Msg := ⟨"assistant", .blocks [⟨"tool_use", "A"⟩]⟩

/-- A follow-up user text message carrying no tool_result block. -/
def uNext : Msg := ⟨"user", .text "please continue"⟩

/-- An assistant turn carrying both a tool_result (for A) and a further
tool_use (B) in one content list. -/
def aMixed : Msg := ⟨"assistant", .blocks [⟨"tool_result", "A"⟩, ⟨"tool_use", "B"⟩]⟩

/-- A trailing user text message. -/
def uLast : Msg := ⟨"user", .text "and a 20ms latency"⟩

/-- C1 counterexample: the repair pass is not idempotent.  On
`[assistant(tool_use A), assistant(tool_result A + tool_use B), user]`
one pass keeps the first assistant turn (its successor carries a
tool_result) while dropping the second (its successor does not); the
second pass then also drops the first assistant turn, whose tool_result
successor is gone. -/
theorem repair_not_idempotent_cex :
    repair [aToolUse, aMixed, uLast] = [aToolUse, uLast] ∧
    repair (repair [aToolUse, aMixed, uLast]) = [uLast] ∧
    repair (repair [aToolUse, aMixed, uLast]) ≠ repair [aToolUse, aMixed, uLast] := by
  refine ⟨by decide, by decide, by decide⟩

/-- C1 (amended): the repair pass is idempotent on every conversation in
which no single message carries both a `tool_use` and a `tool_result`
block. -/
theorem repair_idempotent_of_no_mixed_blocks (msgs : List Msg)
    (h : ∀ m ∈ msgs, noMixed m) :
    repair (repair msgs) = repair msgs := by
  rw [repair_eq_pw msgs, repair_eq_pw (repairPW msgs)]
  exact repairPW_of_goodB _ (goodB_repairPW msgs h)

/-- C1 witness: the amended idempotence theorem applied to the concrete
dangling-tool_use conversation. -/
theorem repair_idempotent_of_no_mixed_blocks_witness :
    (∀ m ∈ [uHi, aToolUse, uNext], noMixed m) ∧
    repair (repair [uHi, aToolUse, uNext]) = repair [uHi, aToolUse, uNext] :=
  ⟨by decide, repair_idempotent_of_no_mixed_blocks [uHi, aToolUse, uNext] (by decide)⟩

/-- C2 counterexample: on `[user, assistant(tool_use A), user]` (no
tool_result anywhere) the repair pass returns the two user messages, not
a single-element `[user]`. -/
theorem repair_dangling_not_singleton_cex :
    repair [uHi, aToolUse, uNext] = [uHi, uNext] ∧
    (repair [uHi, aToolUse, uNext]).length ≠ 1 := by
  refine ⟨by decide, by decide⟩

/-- C2 (amended): on `[user, assistant(tool_use A), user(no tool_result)]`
the repair pass drops exactly the dangling assistant turn and keeps both
user messages, yielding `[user, user]`. -/
theorem repair_dangling_drops_assistant_only :
    repair [uHi, aToolUse, uNext] = [uHi, uNext] := by decide

/-- C10: the repair pass only ever removes whole messages: its output is
a sublist (order-preserving selection) of its input, so nothing is
inserted, reordered or modified. -/
theorem repair_sublist_of_input (msgs : List Msg) :
    (repair msgs).Sublist msgs := by
  rw [repair_eq_pw]
  induction msgs with
  | nil => exact List.Sublist.refl []
  | cons m tail ih =>
      cases tail with
      | nil =>
          cases hA : isATU m
          · simp [repairPW, hA]
          · simp [repairPW, hA]
      | cons n rest =>
          cases hdrop : (isATU m && !(message_has_block n "tool_result"))
          · simp only [repairPW, hdrop, Bool.false_eq_true, if_false]
            exact List.Sublist.cons₂ m ih
          · simp only [repairPW, hdrop, if_true]
            exact List.Sublist.cons m ih

/-- The `initial_prompt` instructions text of `MCPClient.set_llm`
(whitespace normalized to one rule per line). -/
def initial_prompt : String :=
  "You are an assistant that manages network slice reservations for developers via MCP tool calls.\n" ++
  "Follow these rules:\n" ++
  "1. The number of devices (UEs), service time, and service area are not required values.\n" ++
  "2. The number of devices does not have a defined maximum value, as it depends on the value entered by the user.\n" ++
  "3. Consider the number of UEs/devices only when defined by the user.\n" ++
  "4. Ask for throughput/downstream/upstream units only when the user provides a value without any unit. If the value already includes a unit (accept case-insensitive variants such as bps, kbps, Mbps, Gbps, Tbps, Mb/s, megabits per second, etc.), proceed without asking again and reuse that unit.\n" ++
  "5. Service time and area stay null unless the user specifies them.\n" ++
  "6. If a latency/delay budget is given without a unit, assume \"Milliseconds\".\n" ++
  "7. Don't treat mentions of cost or budget as guidance for choosing conservative values, only populate fields that the user requested.\n" ++
  "8. All fields stay null unless the user specifies them, never fabricate values."

/-- The instructions message that `set_llm` inserts at position 0 of the
conversation on every call: a typed user Content for gemini, a plain
user dict for the other providers — the same message in this model. -/
def instrMsg : Msg := ⟨"user", .text initial_prompt⟩

/-- Conversation states reachable through the public operations of the
client process.  The client starts with an empty message list; every
`POST /intent` request runs `set_llm` — which inserts the instructions
message at position 0 — followed by `process_intent`, which appends the
user intent, may run the repair pass (Anthropic), and appends assistant
text, an assistant block turn, or a user tool-result turn depending on
the provider path taken. -/
inductive Reach : List Msg → Prop where
  | init : Reach []
  | set_llm (ms : List Msg) : Reach ms → Reach (instrMsg :: ms)
  | user_intent (ms : List Msg) (s : String) :
      Reach ms → Reach (ms ++ [⟨"user", .text s⟩])
  | assistant_text (ms : List Msg) (s : String) :
      Reach ms → Reach (ms ++ [⟨"assistant", .text s⟩])
  | assistant_blocks (ms : List Msg) (bs : List Blk) :
      Reach ms → Reach (ms ++ [⟨"assistant", .blocks bs⟩])
  | tool_result_turn (ms : List Msg) (b : Blk) :
      Reach ms → Reach (ms ++ [⟨"user", .blocks [b]⟩])
  | repair_pass (ms : List Msg) : Reach ms → Reach (repair ms)

set_option maxRecDepth 100000 in
/-- C3: after two `/intent` requests the conversation holds two copies of
the instructions message — `main.py` calls `set_llm` on every request and
`set_llm` unconditionally inserts the instructions message at position 0,
so it is not inserted exactly once and is duplicated.  The state below is
reached by: startup, request 1 (`set_llm`, then `process_intent` appends
the intent), request 2 (`set_llm` again). -/
theorem instructions_duplicated_after_two_requests :
    Reach [instrMsg, instrMsg, ⟨"user", .text "reserve 5 devices"⟩] ∧
    List.count instrMsg [instrMsg, instrMsg, ⟨"user", .text "reserve 5 devices"⟩] = 2 := by
  constructor
  · exact .set_llm _ (.user_intent _ _ (.set_llm _ .init))
  · decide

/-- The fixed CSV columns of `save_results` in results_file.py. -/
def fieldnames : List String := ["intent", "tool_call", "type_definition"]

/-- One `csv.DictWriter` row: with the default `extrasaction="raise"` a
record carrying a key outside `fieldnames` raises ValueError; a missing
field is written as the empty string (`restval`). -/
def writeRow (row : List (String × String)) : Except String (List String) :=
  if row.all (fun kv => fieldnames.contains kv.1) then
    .ok (fieldnames.map (fun f =>
      match row.find? (fun kv => kv.1 == f) with
      | some kv => kv.2
      | none => ""))
  else .error "ValueError: dict contains fields not in fieldnames"

/-- `save_results` for a single record (the client always passes one
results_log dict, which is a Mapping and becomes the one row).  The result
is (header row, data rows): the header is written exactly when the
destination file does not yet exist (mode "w" instead of "a"). -/
def save_results (data : List (String × String)) (fileExists : Bool) :
    Except String (Option (List String) × List (List String)) :=
  match writeRow data with
  | .error e => .error e
  | .ok r => .ok (if fileExists then none else some fieldnames, [r])

/-- C4: the result logger does not write five columns — its fieldnames
are only `intent, tool_call, type_definition`, and the success-path
record built in `call_openai` (five keys, including `intent_processing`
and `policy`) makes `csv.DictWriter.writerows` raise ValueError, so that
record is never written. -/
theorem save_results_five_field_record_errors :
    save_results [("intent", "reserve 5 devices"),
                  ("intent_processing", "resp"),
                  ("tool_call", "result"),
                  ("type_definition", "eMBB"),
                  ("policy", "created")] false
      = .error "ValueError: dict contains fields not in fieldnames" ∧
    fieldnames ≠ ["intent", "intent_processing", "tool_call", "type_definition", "policy"] := by
  refine ⟨rfl, by decide⟩

/-- One item of an OpenAI Responses API output: a `message` item carries
the text of its first content element, a `function_call` item carries the
tool name, the JSON-encoded arguments string and the call id; items of
any other type are passed over by the loop. -/
inductive OAItem where
  | message : String → OAItem
  | function_call : String → String → String → OAItem
  | other : OAItem
  deriving DecidableEq, Repr

/-- A tool result as `call_openai` reads it: the texts of its content
blocks (an empty list models falsy `content`) and the opaque rendering
`str(tool_result)` that goes into the results log. -/
structure ToolRes where
  contentTexts : List String
  rendered : String
  deriving DecidableEq, Repr

/-- Environment of one `call_openai` run: outcomes of the outbound calls
(the tool outcome is indexed by invocation count, covering both the
`json.loads(tool_args)` of the arguments and `session.call_tool`, which
sit in the same try block), the JSON extraction of the `message` field
from a tool output, the classification response and the policy
submission, plus the opaque renderings used in the results log. -/
structure OAEnv where
  responseStr : String
  toolOutcome : Nat → Except String ToolRes
  parseMessage : String → Except String String
  sliceResp : List OAItem
  sliceRespStr : String
  policyOutcome : Except String String

/-- Observable outcome of one `call_openai` run: the returned or raised
value (`ok none` models falling off the loop and returning None), the
results log handed to `save_results` in the `finally` block, whether
`slice_request` was called, and whether a tool invocation was made. -/
structure OARun where
  result : Except String (Option String)
  resultsLog : List (String × String)
  policyCalled : Bool
  toolInvoked : Bool
  deriving Repr

/-- `for item in slice_type_response.output: if message: slice_type =
item.content[0].text` — the last message item wins, `None` if absent. -/
def lastMessageText (items : List OAItem) : Option String :=
  items.foldl (fun acc it =>
    match it with
    | .message t => some t
    | _ => acc) none

/-- The item loop of `call_openai`.  A `message` item returns its text at
once.  A `function_call` item invokes the tool: failure aborts the intent
with the log as it stood; on success the log gains the response and tool
renderings, a falsy tool content continues the loop, and otherwise the
`message` field of the first content text becomes the slice description,
the classification and the policy submission run, and the policy body is
returned with the full five-field log. -/
def oaLoop (intent : String) (env : OAEnv) :
    List OAItem → Nat → List (String × String) → Bool → OARun
  | [], _, log, inv =>
      { result := .ok none, resultsLog := log, policyCalled := false,
        toolInvoked := inv }
  | .message t :: _, _, _, inv =>
      { result := .ok (some t),
        resultsLog := [("intent", intent), ("intent_processing", env.responseStr)],
        policyCalled := false, toolInvoked := inv }
  | .other :: rest, calls, log, inv => oaLoop intent env rest calls log inv
  | .function_call name _args _cid :: rest, calls, log, inv =>
      match env.toolOutcome calls with
      | .error e =>
          { result := .error ("Tool execution failed for " ++ name ++ ": " ++ e),
            resultsLog := log, policyCalled := false, toolInvoked := true }
      | .ok tr =>
          let log2 := [("intent", intent),
                       ("intent_processing", env.responseStr),
                       ("tool_call", tr.rendered)]
          match tr.contentTexts with
          | [] => oaLoop intent env rest (calls + 1) log2 true
          | t0 :: _ =>
              match env.parseMessage t0 with
              | .error e =>
                  { result := .error e, resultsLog := log2,
                    policyCalled := false, toolInvoked := true }
              | .ok _slice =>
                  match env.policyOutcome with
                  | .error e =>
                      { result := .error e, resultsLog := log2,
                        policyCalled := true, toolInvoked := true }
                  | .ok ptext =>
                      { result := .ok (some ptext),
                        resultsLog := [("intent", intent),
                                       ("intent_processing", env.responseStr),
                                       ("tool_call", tr.rendered),
                                       ("type_definition", env.sliceRespStr),
                                       ("policy", ptext)],
                        policyCalled := true, toolInvoked := true }

/-- `MCPClient.call_openai` after a successful provider call: the user
turn is appended (conversation state is not tracked here), the results
log starts as `{"intent": intent}`, and the output items are scanned.
The `finally` block then persists the run's results log. -/
def call_openai (intent : String) (env : OAEnv) (output : List OAItem) : OARun :=
  oaLoop intent env output 0 [("intent", intent)] false

/-- C9: if the tool invocation performed for an intent fails, the run
makes no policy submission, its results log holds only the intent field,
and the record persisted by `save_results` has only the intent column
populated. -/
theorem tool_failure_no_policy_intent_only
    (intent : String) (env : OAEnv) (output : List OAItem) (e : String)
    (hfail : env.toolOutcome 0 = .error e)
    (hinv : (call_openai intent env output).toolInvoked = true) :
    (call_openai intent env output).policyCalled = false ∧
    (call_openai intent env output).resultsLog = [("intent", intent)] ∧
    save_results (call_openai intent env output).resultsLog true =
      .ok (none, [[intent, "", ""]]) := by
  unfold call_openai at hinv ⊢
  induction output with
  | nil => simp [oaLoop] at hinv
  | cons it rest ih =>
      cases it with
      | message t => simp [oaLoop] at hinv
      | other =>
          simp only [oaLoop] at hinv ⊢
          exact ih hinv
      | function_call name args cid =>
          simp only [oaLoop, hfail] at hinv ⊢
          exact ⟨trivial, trivial, rfl⟩

/-- C9 witness environment: the single tool invocation fails. -/
def oaEnvFail : OAEnv :=
  { responseStr := "resp", toolOutcome := fun _ => .error "boom",
    parseMessage := fun t => .ok t, sliceResp := [], sliceRespStr := "",
    policyOutcome := .ok "policy" }

/-- C9 witness: the theorem applied to a concrete failing run. -/
theorem tool_failure_no_policy_intent_only_witness :
    oaEnvFail.toolOutcome 0 = .error "boom" ∧
    (call_openai "reserve ten devices" oaEnvFail
        [.function_call "book_slice" "" "c1"]).toolInvoked = true ∧
    ((call_openai "reserve ten devices" oaEnvFail
        [.function_call "book_slice" "" "c1"]).policyCalled = false ∧
     (call_openai "reserve ten devices" oaEnvFail
        [.function_call "book_slice" "" "c1"]).resultsLog
        = [("intent", "reserve ten devices")] ∧
     save_results (call_openai "reserve ten devices" oaEnvFail
        [.function_call "book_slice" "" "c1"]).resultsLog true
        = .ok (none, [["reserve ten devices", "", ""]])) :=
  ⟨rfl, rfl,
    tool_failure_no_policy_intent_only "reserve ten devices" oaEnvFail
      [.function_call "book_slice" "" "c1"] "boom" rfl rfl⟩

/-- A Gemini function call: name and structured arguments. -/
structure GFunctionCall where
  name : String
  args : List (String × String)
  deriving DecidableEq, Repr

/-- One part of a Gemini candidate's content, as the classification loop
reads it: only `function_call` (present and truthy, or absent) is
inspected. -/
structure GPart where
  function_call : Option GFunctionCall
  deriving DecidableEq, Repr

/-- Outcome of the `call_gemini` response classification: a final
assistant text built from the scanned candidate's content, a tool
request, or the NameError raised by `if function_call:` when the loop
ends without the name ever being bound. -/
inductive GeminiOutcome where
  | finalText : List GPart → GeminiOutcome
  | toolRequest : GFunctionCall → GeminiOutcome
  | nameError : GeminiOutcome
  deriving DecidableEq, Repr

/-- The candidate/part loop of `call_gemini`, with the `function_call`
variable threaded as an accumulator.  For each candidate, the first part
decides: a part with a function_call records it and breaks to the next
candidate; a part without one returns the assistant message (that
candidate's content) immediately.  An empty part list moves on. -/
def goClassify : List (List GPart) → Option GFunctionCall → GeminiOutcome
  | [], none => .nameError
  | [], some fc => .toolRequest fc
  | parts :: rest, acc =>
      match parts with
      | [] => goClassify rest acc
      | p :: _ =>
          match p.function_call with
          | some fc => goClassify rest (some fc)
          | none => .finalText parts

/-- The response classification of `MCPClient.call_gemini`, lines
431-445: scan candidates and parts, then `if function_call:` takes the
tool path. -/
def classifyGemini (cands : List (List GPart)) : GeminiOutcome :=
  goClassify cands none

/-- A Gemini part with no function-call field (a text part). -/
def gPartText : GPart := ⟨none⟩

/-- A Gemini part carrying a function call. -/
def gPartCall : GPart := ⟨some ⟨"book_slice", [("device_number", "5")]⟩⟩

/-- C5 counterexample: a single candidate whose first part is text and
whose second part carries a function call is classified as final text —
the presence of a function-call part in the first candidate does not
yield a tool request, because only the first part is ever inspected (the
`else` of the part loop returns immediately). -/
theorem gemini_classify_first_part_cex :
    (∃ p ∈ [gPartText, gPartCall], p.function_call.isSome) ∧
    classifyGemini [[gPartText, gPartCall]] = .finalText [gPartText, gPartCall] ∧
    (∀ fc, classifyGemini [[gPartText, gPartCall]] ≠ .toolRequest fc) := by
  refine ⟨⟨gPartCall, by decide, by decide⟩, rfl, ?_⟩
  intro fc h
  cases h

/-- C5 (amended): for a response with a single candidate with at least
one part, classification is decided by the first part alone — final text
exactly when the first part has no function-call field, and a tool
request for the first part's function call otherwise. -/
theorem gemini_classify_single_candidate_first_part (p : GPart) (ps : List GPart) :
    classifyGemini [p :: ps] =
      match p.function_call with
      | none => .finalText (p :: ps)
      | some fc => .toolRequest fc := by
  cases h : p.function_call with
  | none => simp [classifyGemini, goClassify, h]
  | some fc => simp [classifyGemini, goClassify, h]

theorem hasKey_filter_self (kvs : List (String × JVal)) (k : String) :
    hasKey (kvs.filter (fun kv => !(kv.1 == k))) k = false := by
  induction kvs with
  | nil => rfl
  | cons hd tl ih =>
      rw [List.filter_cons]
      cases hb : (hd.1 == k)
      · simp only [hb, Bool.not_false, if_true]
        simp only [hasKey, jget, List.find?, hb]
        exact ih
      · simp only [hb, Bool.not_true, Bool.false_eq_true, if_false]
        exact ih

theorem hasKey_cons (hd : String × JVal) (tl : List (String × JVal)) (k : String) :
    hasKey (hd :: tl) k = ((hd.1 == k) || hasKey tl k) := by
  cases hb : (hd.1 == k)
  · simp only [hasKey, jget, List.find?, hb, Bool.false_or]
  · simp only [hasKey, jget, List.find?, hb, Bool.true_or]
    rfl

theorem hasKey_append (l1 l2 : List (String × JVal)) (k : String) :
    hasKey (l1 ++ l2) k = (hasKey l1 k || hasKey l2 k) := by
  induction l1 with
  | nil => simp [hasKey, jget]
  | cons hd tl ih =>
      rw [List.cons_append, hasKey_cons, hasKey_cons, ih, Bool.or_assoc]

theorem hasKey_map_fst (l : List (String × JVal)) (f : String × JVal → JVal) (k : String) :
    hasKey (l.map (fun kv => (kv.1, f kv))) k = hasKey l k := by
  induction l with
  | nil => rfl
  | cons hd tl ih =>
      rw [List.map_cons, hasKey_cons, hasKey_cons, ih]

theorem hasKey_filter_false (l : List (String × JVal)) (p : String × JVal → Bool)
    (k : String) (h : hasKey l k = false) : hasKey (l.filter p) k = false := by
  induction l with
  | nil => rfl
  | cons hd tl ih =>
      rw [hasKey_cons] at h
      have h1 : (hd.1 == k) = false := by
        cases hb : (hd.1 == k)
        · rfl
        · rw [hb, Bool.true_or] at h; cases h
      have h2 : hasKey tl k = false := by
        rw [h1, Bool.false_or] at h; exact h
      rw [List.filter_cons]
      cases hp : p hd
      · simp only [Bool.false_eq_true, if_false]
        exact ih h2
      · simp only [if_true]
        rw [hasKey_cons, h1, Bool.false_or]
        exact ih h2

theorem hasKey_dictUpdate_false (d1 d2 : List (String × JVal)) (k : String)
    (h1 : hasKey d1 k = false) (h2 : hasKey d2 k = false) :
    hasKey (dictUpdate d1 d2) k = false := by
  unfold dictUpdate
  rw [hasKey_append]
  rw [hasKey_map_fst d1 (fun kv => (jget d2 kv.1).getD kv.2) k, h1]
  rw [hasKey_filter_false d2 _ k h2]
  rfl

theorem hasKey_setKey_ne (kvs : List (String × JVal)) (k k2 : String) (v : JVal)
    (hne : (k2 == k) = false) (h : hasKey kvs k = false) :
    hasKey (setKey kvs k2 v) k = false := by
  induction kvs with
  | nil =>
      simp only [setKey, hasKey, jget, List.find?, hne]
      rfl
  | cons hd tl ih =>
      rw [hasKey_cons] at h
      have h1 : (hd.1 == k) = false := by
        cases hb : (hd.1 == k)
        · rfl
        · rw [hb, Bool.true_or] at h; cases h
      have h2 : hasKey tl k = false := by
        rw [h1, Bool.false_or] at h; exact h
      unfold setKey
      cases hb : (hd.1 == k2)
      · simp only [Bool.false_eq_true, if_false]
        rw [hasKey_cons, h1, Bool.false_or]
        exact ih h2
      · simp only [if_true]
        rw [hasKey_cons, hne, Bool.false_or]
        exact h2

theorem filter_pred_idem {A : Type} (l : List A) (p : A → Bool) :
    (l.filter p).filter p = l.filter p := by
  induction l with
  | nil => rfl
  | cons hd tl ih =>
      rw [List.filter_cons]
      cases hp : p hd
      · simp only [Bool.false_eq_true, if_false]
        exact ih
      · simp only [if_true]
        rw [List.filter_cons, hp]
        simp only [if_true]
        rw [ih]

/-- C6 (amended): when the anyOf union of a node holds exactly one
non-null option — a dict that itself carries no anyOf key — alongside at
least one null-type option, normalization collapses to that option's
schema with all of the parent's other keys (title/description included)
merged over it plus `nullable: true`, and the result carries no anyOf
key. -/
theorem normalize_any_of_collapse_nullable
    (kvs okvs : List (String × JVal)) (opts : List JVal)
    (hA : jget kvs "anyOf" = some (.arr opts))
    (hnn : opts.filter (fun o => !isNullOption o) = [.obj okvs])
    (hnull : (opts.filter (fun o => !isNullOption o)).length ≠ opts.length)
    (hno : hasKey okvs "anyOf" = false) :
    ∃ entries,
      normalize_any_of kvs = .ok (.obj entries) ∧
      entries = setKey (dictUpdate okvs (kvs.filter (fun kv => !(kv.1 == "anyOf"))))
        "nullable" (.bool true) ∧
      hasKey entries "anyOf" = false := by
  have hlen : (opts.filter (fun o => !isNullOption o)).length = 1 := by
    rw [hnn]; rfl
  have hcond : ((opts.filter (fun o => !isNullOption o)).length != opts.length
      && (opts.filter (fun o => !isNullOption o)).length == 1) = true := by
    rw [hlen]
    have h1 : (1 != opts.length) = true := by
      rw [hlen] at hnull
      simp [bne_iff_ne, hnull]
    rw [h1]
    rfl
  refine ⟨setKey (dictUpdate okvs (kvs.filter (fun kv => !(kv.1 == "anyOf"))))
    "nullable" (.bool true), ?_, rfl, ?_⟩
  · unfold normalize_any_of
    rw [hA]
    simp only [Option.getD_some]
    rw [hnn]
    rw [hnn] at hcond
    simp only [hcond, if_true]
    simp only [pyDict]
    rw [filter_pred_idem]
  · apply hasKey_setKey_ne _ _ _ _ (by decide)
    apply hasKey_dictUpdate_false _ _ _ hno
    exact hasKey_filter_self kvs "anyOf"

/-- C6 witness: a concrete `[T, null]` union with a parent title. -/
theorem normalize_any_of_collapse_nullable_witness :
    (jget [("title", .str "T"),
           ("anyOf", .arr [.obj [("type", .str "string")], .obj [("type", .str "null")]])]
        "anyOf" = some (.arr [.obj [("type", .str "string")], .obj [("type", .str "null")]])) ∧
    ([.obj [("type", .str "string")], .obj [("type", .str "null")]].filter
        (fun o => !isNullOption o) = [.obj [("type", .str "string")]]) ∧
    (∃ entries,
      normalize_any_of [("title", .str "T"),
        ("anyOf", .arr [.obj [("type", .str "string")], .obj [("type", .str "null")]])]
        = .ok (.obj entries) ∧
      entries = setKey (dictUpdate [("type", .str "string")]
          ([("title", .str "T"),
            ("anyOf", .arr [.obj [("type", .str "string")], .obj [("type", .str "null")]])].filter
            (fun kv => !(kv.1 == "anyOf"))))
        "nullable" (.bool true) ∧
      hasKey entries "anyOf" = false) :=
  ⟨rfl, rfl,
    normalize_any_of_collapse_nullable _ [("type", .str "string")] _ rfl rfl
      (by decide) rfl⟩

/-- A union option that is itself an anyOf union (as produced by the
recursive resolution of a nested union). -/
def innerUnion : JVal :=
  .obj [("anyOf", .arr [.obj [("type", .str "string")], .obj [("type", .str "integer")]])]

/-- A null-type union option. -/
def nullOpt : JVal := .obj [("type", .str "null")]

/-- C6 counterexample: a node whose anyOf union holds exactly one
non-null option (itself an anyOf union) alongside a null option
normalizes to that option merged with `nullable: true` — and the result
still carries an anyOf key (with the sibling `nullable`), a residual
anyOf at that node. -/
theorem normalize_any_of_residual_anyof_cex :
    ([innerUnion, nullOpt].filter (fun o => !isNullOption o) = [innerUnion]) ∧
    normalize_any_of [("anyOf", .arr [innerUnion, nullOpt])] =
      .ok (.obj [("anyOf", .arr [.obj [("type", .str "string")], .obj [("type", .str "integer")]]),
                 ("nullable", .bool true)]) ∧
    hasKey [("anyOf", .arr [.obj [("type", .str "string")], .obj [("type", .str "integer")]]),
            ("nullable", .bool true)] "anyOf" = true :=
  ⟨rfl, rfl, rfl⟩

/-- `isinstance(x, dict)`. -/
def isObj : JVal → Bool
  | .obj _ => true
  | _ => false

/-- C8 counterexample: a truthy non-object schema (the string "x") makes
`resolve_genai_schema` raise — the `.get` attribute access on a non-dict
— instead of passing the input through unchanged without exception. -/
theorem resolver_truthy_nonobject_errors_cex :
    resolve_genai_schema (.str "x") =
      .error "AttributeError: object has no attribute get" ∧
    resolve_genai_schema (.str "x") ≠ .ok (.str "x") :=
  ⟨rfl, fun h => Except.noConfusion h⟩

/-- C8 (amended): an absent or empty (falsy) schema yields the null
result without raising; a truthy non-object schema does not pass through
unchanged but raises (the AttributeError of the `$defs` lookup). -/
theorem resolver_falsy_null_truthy_nonobject_error (j : JVal) :
    (truthy j = false → resolve_genai_schema j = .ok .null) ∧
    (truthy j = true → isObj j = false →
      ∃ e, resolve_genai_schema j = .error e) := by
  constructor
  · intro h
    unfold resolve_genai_schema
    rw [h]
    simp
  · intro ht hobj
    unfold resolve_genai_schema
    rw [ht]
    cases j with
    | obj kvs => simp [isObj] at hobj
    | null => exact ⟨"AttributeError: object has no attribute get", by simp⟩
    | bool b => exact ⟨"AttributeError: object has no attribute get", by simp⟩
    | num n => exact ⟨"AttributeError: object has no attribute get", by simp⟩
    | str s => exact ⟨"AttributeError: object has no attribute get", by simp⟩
    | arr xs => exact ⟨"AttributeError: object has no attribute get", by simp⟩

/-- C8 witness: the amended theorem at an empty dict (falsy) and at the
string "x" (truthy non-object). -/
theorem resolver_falsy_truthy_witness :
    (truthy (.obj []) = false ∧ resolve_genai_schema (.obj []) = .ok .null) ∧
    (truthy (.str "x") = true ∧ isObj (.str "x") = false ∧
      ∃ e, resolve_genai_schema (.str "x") = .error e) :=
  ⟨⟨rfl, (resolver_falsy_null_truthy_nonobject_error (.obj [])).1 rfl⟩,
   ⟨rfl, rfl, (resolver_falsy_null_truthy_nonobject_error (.str "x")).2 rfl rfl⟩⟩

mutual

/-- Fuel-indexed twin of `resolveNode`, structurally recursive in the
fuel (`none` = fuel exhausted), used to evaluate the resolver on concrete
schemas; `resolveF_sound` transfers its results to `resolveNode`. -/
def resolveNodeF : Nat → JVal → List String → JVal → Option (Except String JVal)
  | 0, _, _, _ => none
  | Nat.succ fuel, defs, R, node =>
      match node with
      | .obj kvs =>
          match refDecision defs R kvs with
          | .err e => some (.error e)
          | .nobase =>
              match resolveEntriesF fuel defs R kvs with
              | none => none
              | some (.error e) => some (.error e)
              | some (.ok resolved) => some (mergeStep (.obj []) resolved)
          | .recurse k dv =>
              match resolveNodeF fuel defs (k :: R) dv with
              | none => none
              | some (.error e) => some (.error e)
              | some (.ok base) =>
                  match resolveEntriesF fuel defs R kvs with
                  | none => none
                  | some (.error e) => some (.error e)
                  | some (.ok resolved) => some (mergeStep base resolved)
      | .arr xs =>
          match resolveItemsF fuel defs R xs with
          | none => none
          | some (.error e) => some (.error e)
          | some (.ok ys) => some (.ok (.arr ys))
      | other => some (.ok other)

/-- Fuel-indexed twin of `resolveEntries`. -/
def resolveEntriesF :
    Nat → JVal → List String → List (String × JVal) →
      Option (Except String (List (String × JVal)))
  | 0, _, _, _ => none
  | Nat.succ fuel, defs, R, kvs =>
      match kvs with
      | [] => some (.ok [])
      | (k, v) :: rest =>
          if k == "$defs" || k == "$ref" then resolveEntriesF fuel defs R rest
          else
            match resolveNodeF fuel defs R v with
            | none => none
            | some (.error e) => some (.error e)
            | some (.ok v2) =>
                match resolveEntriesF fuel defs R rest with
                | none => none
                | some (.error e) => some (.error e)
                | some (.ok rest2) => some (.ok ((k, v2) :: rest2))

/-- Fuel-indexed twin of `resolveItems`. -/
def resolveItemsF :
    Nat → JVal → List String → List JVal → Option (Except String (List JVal))
  | 0, _, _, _ => none
  | Nat.succ fuel, defs, R, xs =>
      match xs with
      | [] => some (.ok [])
      | x :: rest =>
          match resolveNodeF fuel defs R x with
          | none => none
          | some (.error e) => some (.error e)
          | some (.ok y) =>
              match resolveItemsF fuel defs R rest with
              | none => none
              | some (.error e) => some (.error e)
              | some (.ok ys) => some (.ok (y :: ys))

end

theorem resolveNode_obj_err (defs : JVal) (R : List String)
    (kvs : List (String × JVal)) (e : String)
    (hD : refDecision defs R kvs = .err e) :
    resolveNode defs R (.obj kvs) = .error e := by
  rw [resolveNode, hD]

theorem resolveNode_obj_nobase (defs : JVal) (R : List String)
    (kvs : List (String × JVal)) (hD : refDecision defs R kvs = .nobase) :
    resolveNode defs R (.obj kvs) =
      (match resolveEntries defs R kvs with
       | .error e => .error e
       | .ok resolved => mergeStep (.obj []) resolved) := by
  rw [resolveNode, hD]

theorem resolveNode_obj_recurse (defs : JVal) (R : List String)
    (kvs : List (String × JVal)) (k : String) (dv : JVal)
    (hD : refDecision defs R kvs = .recurse k dv) :
    resolveNode defs R (.obj kvs) =
      (match resolveNode defs (k :: R) dv with
       | .error e => .error e
       | .ok base =>
           match resolveEntries defs R kvs with
           | .error e => .error e
           | .ok resolved => mergeStep base resolved) := by
  rw [resolveNode, hD]

theorem resolveNode_arr_eq (defs : JVal) (R : List String) (xs : List JVal) :
    resolveNode defs R (.arr xs) =
      (match resolveItems defs R xs with
       | .error e => .error e
       | .ok ys => .ok (.arr ys)) := by
  rw [resolveNode]

theorem resolveNode_null_eq (defs : JVal) (R : List String) :
    resolveNode defs R .null = .ok .null := by
  rw [resolveNode] <;> simp

theorem resolveNode_bool_eq (defs : JVal) (R : List String) (b : Bool) :
    resolveNode defs R (.bool b) = .ok (.bool b) := by
  rw [resolveNode] <;> simp

theorem resolveNode_num_eq (defs : JVal) (R : List String) (n : Int) :
    resolveNode defs R (.num n) = .ok (.num n) := by
  rw [resolveNode] <;> simp

theorem resolveNode_str_eq (defs : JVal) (R : List String) (s : String) :
    resolveNode defs R (.str s) = .ok (.str s) := by
  rw [resolveNode] <;> simp

theorem resolveEntries_nil_eq (defs : JVal) (R : List String) :
    resolveEntries defs R [] = .ok [] := by
  rw [resolveEntries]

theorem resolveEntries_cons_skip (defs : JVal) (R : List String) (k : String)
    (v : JVal) (rest : List (String × JVal))
    (hk : (k == "$defs" || k == "$ref") = true) :
    resolveEntries defs R ((k, v) :: rest) = resolveEntries defs R rest := by
  rw [resolveEntries, if_pos hk]

theorem resolveEntries_cons_keep (defs : JVal) (R : List String) (k : String)
    (v : JVal) (rest : List (String × JVal))
    (hk : (k == "$defs" || k == "$ref") = false) :
    resolveEntries defs R ((k, v) :: rest) =
      (match resolveNode defs R v with
       | .error e => .error e
       | .ok v2 =>
           match resolveEntries defs R rest with
           | .error e => .error e
           | .ok rest2 => .ok ((k, v2) :: rest2)) := by
  rw [resolveEntries]
  rw [if_neg]
  rw [hk]
  exact Bool.false_ne_true

theorem resolveItems_nil_eq (defs : JVal) (R : List String) :
    resolveItems defs R [] = .ok [] := by
  rw [resolveItems]

theorem resolveItems_cons_eq (defs : JVal) (R : List String) (x : JVal)
    (rest : List JVal) :
    resolveItems defs R (x :: rest) =
      (match resolveNode defs R x with
       | .error e => .error e
       | .ok y =>
           match resolveItems defs R rest with
           | .error e => .error e
           | .ok ys => .ok (y :: ys)) := by
  rw [resolveItems]

theorem resolveF_sound (fuel : Nat) :
    (∀ defs R node res, resolveNodeF fuel defs R node = some res →
      resolveNode defs R node = res) ∧
    (∀ defs R kvs res, resolveEntriesF fuel defs R kvs = some res →
      resolveEntries defs R kvs = res) ∧
    (∀ defs R xs res, resolveItemsF fuel defs R xs = some res →
      resolveItems defs R xs = res) := by
  induction fuel with
  | zero =>
      refine ⟨?_, ?_, ?_⟩
      · intro defs R node res h
        exact Option.noConfusion h
      · intro defs R kvs res h
        exact Option.noConfusion h
      · intro defs R xs res h
        exact Option.noConfusion h
  | succ fuel ih =>
      obtain ⟨ihN, ihE, ihI⟩ := ih
      refine ⟨?_, ?_, ?_⟩
      · intro defs R node res h
        cases node with
        | obj kvs =>
            cases hD : refDecision defs R kvs with
            | err e =>
                simp only [resolveNodeF, hD, Option.some.injEq] at h
                rw [resolveNode_obj_err defs R kvs e hD, ← h]
            | nobase =>
                rw [resolveNode_obj_nobase defs R kvs hD]
                cases hE : resolveEntriesF fuel defs R kvs with
                | none =>
                    simp only [resolveNodeF, hD, hE] at h
                    exact Option.noConfusion h
                | some er =>
                    rw [ihE defs R kvs er hE]
                    cases er with
                    | error e =>
                        simp only [resolveNodeF, hD, hE, Option.some.injEq] at h
                        rw [← h]
                    | ok resolved =>
                        simp only [resolveNodeF, hD, hE, Option.some.injEq] at h
                        rw [← h]
            | recurse k dv =>
                rw [resolveNode_obj_recurse defs R kvs k dv hD]
                cases hB : resolveNodeF fuel defs (k :: R) dv with
                | none =>
                    simp only [resolveNodeF, hD, hB] at h
                    exact Option.noConfusion h
                | some br =>
                    rw [ihN defs (k :: R) dv br hB]
                    cases br with
                    | error e =>
                        simp only [resolveNodeF, hD, hB, Option.some.injEq] at h
                        rw [← h]
                    | ok base =>
                        cases hE : resolveEntriesF fuel defs R kvs with
                        | none =>
                            simp only [resolveNodeF, hD, hB, hE] at h
                            exact Option.noConfusion h
                        | some er =>
                            rw [ihE defs R kvs er hE]
                            cases er with
                            | error e =>
                                simp only [resolveNodeF, hD, hB, hE,
                                  Option.some.injEq] at h
                                rw [← h]
                            | ok resolved =>
                                simp only [resolveNodeF, hD, hB, hE,
                                  Option.some.injEq] at h
                                rw [← h]
        | arr xs =>
            rw [resolveNode_arr_eq defs R xs]
            cases hI : resolveItemsF fuel defs R xs with
            | none =>
                simp only [resolveNodeF, hI] at h
                exact Option.noConfusion h
            | some ir =>
                rw [ihI defs R xs ir hI]
                cases ir with
                | error e =>
                    simp only [resolveNodeF, hI, Option.some.injEq] at h
                    rw [← h]
                | ok ys =>
                    simp only [resolveNodeF, hI, Option.some.injEq] at h
                    rw [← h]
        | null =>
            simp only [resolveNodeF, Option.some.injEq] at h
            rw [resolveNode_null_eq, ← h]
        | bool b =>
            simp only [resolveNodeF, Option.some.injEq] at h
            rw [resolveNode_bool_eq, ← h]
        | num n =>
            simp only [resolveNodeF, Option.some.injEq] at h
            rw [resolveNode_num_eq, ← h]
        | str s =>
            simp only [resolveNodeF, Option.some.injEq] at h
            rw [resolveNode_str_eq, ← h]
      · intro defs R kvs res h
        cases kvs with
        | nil =>
            simp only [resolveEntriesF, Option.some.injEq] at h
            rw [resolveEntries_nil_eq, ← h]
        | cons kv rest =>
            obtain ⟨k, v⟩ := kv
            cases hskip : (k == "$defs" || k == "$ref") with
            | true =>
                rw [resolveEntries_cons_skip defs R k v rest hskip]
                simp only [resolveEntriesF, hskip, if_true] at h
                exact ihE defs R rest res h
            | false =>
                rw [resolveEntries_cons_keep defs R k v rest hskip]
                cases hV : resolveNodeF fuel defs R v with
                | none =>
                    simp only [resolveEntriesF, hskip, Bool.false_eq_true,
                      if_false, hV] at h
                    exact Option.noConfusion h
                | some vr =>
                    rw [ihN defs R v vr hV]
                    cases vr with
                    | error e =>
                        simp only [resolveEntriesF, hskip, Bool.false_eq_true,
                          if_false, hV, Option.some.injEq] at h
                        rw [← h]
                    | ok v2 =>
                        cases hR2 : resolveEntriesF fuel defs R rest with
                        | none =>
                            simp only [resolveEntriesF, hskip, Bool.false_eq_true,
                              if_false, hV, hR2] at h
                            exact Option.noConfusion h
                        | some rr =>
                            rw [ihE defs R rest rr hR2]
                            cases rr with
                            | error e =>
                                simp only [resolveEntriesF, hskip,
                                  Bool.false_eq_true, if_false, hV, hR2,
                                  Option.some.injEq] at h
                                rw [← h]
                            | ok rest2 =>
                                simp only [resolveEntriesF, hskip,
                                  Bool.false_eq_true, if_false, hV, hR2,
                                  Option.some.injEq] at h
                                rw [← h]
      · intro defs R xs res h
        cases xs with
        | nil =>
            simp only [resolveItemsF, Option.some.injEq] at h
            rw [resolveItems_nil_eq, ← h]
        | cons x rest =>
            rw [resolveItems_cons_eq defs R x rest]
            cases hX : resolveNodeF fuel defs R x with
            | none =>
                simp only [resolveItemsF, hX] at h
                exact Option.noConfusion h
            | some xr =>
                rw [ihN defs R x xr hX]
                cases xr with
                | error e =>
                    simp only [resolveItemsF, hX, Option.some.injEq] at h
                    rw [← h]
                | ok y =>
                    cases hR2 : resolveItemsF fuel defs R rest with
                    | none =>
                        simp only [resolveItemsF, hX, hR2] at h
                        exact Option.noConfusion h
                    | some rr =>
                        rw [ihI defs R rest rr hR2]
                        cases rr with
                        | error e =>
                            simp only [resolveItemsF, hX, hR2,
                              Option.some.injEq] at h
                            rw [← h]
                        | ok ys =>
                            simp only [resolveItemsF, hX, hR2,
                              Option.some.injEq] at h
                            rw [← h]

/-- A two-element array literal whose first member is the string
`"$ref"` or `"$defs"`: Python's `dict()` turns such a pair into an
object entry with that key. -/
def notBadPairShape : JVal → Bool
  | .arr [k, _] =>
      match k with
      | .str s => !(s == "$ref" || s == "$defs")
      | _ => true
  | _ => true

mutual

/-- No array anywhere in the value contains a `["$ref"/"$defs", _]`
pair literal (the one shape `dict()` can turn into a `$ref`/`$defs`
key). -/
def noBadPair : JVal → Bool
  | .obj kvs => noBadPairEntries kvs
  | .arr xs => noBadPairArr xs
  | _ => true

/-- `noBadPair` over the values of a dict. -/
def noBadPairEntries : List (String × JVal) → Bool
  | [] => true
  | kv :: rest => noBadPair kv.2 && noBadPairEntries rest

/-- `noBadPair` over the elements of an array, including their shape. -/
def noBadPairArr : List JVal → Bool
  | [] => true
  | x :: rest => notBadPairShape x && noBadPair x && noBadPairArr rest

end

mutual

/-- A resolver output is clean: no `$ref` or `$defs` key occurs in any
object anywhere in the value, and no array carries a
`["$ref"/"$defs", _]` pair literal. -/
def cleanJ : JVal → Bool
  | .obj kvs => cleanEntries kvs
  | .arr xs => cleanArr xs
  | _ => true

/-- `cleanJ` over dict entries: keys are not `$ref`/`$defs` and values
are clean. -/
def cleanEntries : List (String × JVal) → Bool
  | [] => true
  | (k, v) :: rest =>
      !(k == "$ref" || k == "$defs") && cleanJ v && cleanEntries rest

/-- `cleanJ` over array elements, including their shape. -/
def cleanArr : List JVal → Bool
  | [] => true
  | x :: rest => notBadPairShape x && cleanJ x && cleanArr rest

end

/-- The `["$ref", "x"]` pair-array schema: its anyOf union holds exactly
one non-null option — a list containing one key-value pair literal —
alongside a null option, so the collapse branch runs `dict()` on it. -/
def pairRefSchema : JVal :=
  .obj [("anyOf", .arr [.arr [.arr [.str "$ref", .str "x"]],
                        .obj [("type", .str "null")]])]

/-- A self-referential schema: `$defs.a` refers back to itself. -/
def selfRefSchema : JVal :=
  .obj [("$defs", .obj [("a", .obj [("$ref", .str "#/$defs/a"),
                                    ("type", .str "object")])]),
        ("$ref", .str "#/$defs/a"),
        ("title", .str "X")]

theorem resolve_genai_schema_obj_ok_obj (kvs fk : List (String × JVal))
    (hne : truthy (.obj kvs) = true)
    (h : resolveNode ((jget kvs "$defs").getD (.obj [])) [] (.obj kvs)
          = .ok (.obj fk)) :
    resolve_genai_schema (.obj kvs) =
      .ok (.obj (fk.filter (fun kv => !(kv.1 == "$defs")))) := by
  unfold resolve_genai_schema
  rw [if_pos hne]
  show (match resolveNode ((jget kvs "$defs").getD (.obj [])) [] (.obj kvs) with
        | .error e => Except.error e
        | .ok flattened =>
            match flattened with
            | .obj fk2 => Except.ok (.obj (fk2.filter (fun kv => !(kv.1 == "$defs"))))
            | other => Except.ok other)
      = Except.ok (.obj (fk.filter (fun kv => !(kv.1 == "$defs"))))
  rw [h]

/-- C7 counterexample: resolving the pair-array schema terminates but
returns an object carrying a `$ref` key — the anyOf collapse runs
`dict()` on the non-null option `[["$ref", "x"]]`, which turns the pair
literal into a `$ref` entry, so the output is not free of `$ref` keys. -/
theorem resolver_ref_key_reintroduced_cex :
    resolve_genai_schema pairRefSchema =
      .ok (.obj [("$ref", .str "x"), ("nullable", .bool true)]) ∧
    hasKey [("$ref", .str "x"), ("nullable", .bool true)] "$ref" = true ∧
    cleanJ (.obj [("$ref", .str "x"), ("nullable", .bool true)]) = false := by
  refine ⟨?_, rfl, rfl⟩
  have h : resolveNode (.obj []) []
      (.obj [("anyOf", .arr [.arr [.arr [.str "$ref", .str "x"]],
                             .obj [("type", .str "null")]])])
      = .ok (.obj [("$ref", .str "x"), ("nullable", .bool true)]) :=
    (resolveF_sound 10).1 _ _ _ _ rfl
  exact resolve_genai_schema_obj_ok_obj
    [("anyOf", .arr [.arr [.arr [.str "$ref", .str "x"]],
                     .obj [("type", .str "null")]])]
    [("$ref", .str "x"), ("nullable", .bool true)] rfl h

theorem cleanArr_mem (l : List JVal) (x : JVal) (h : cleanArr l = true)
    (hx : x ∈ l) : notBadPairShape x = true ∧ cleanJ x = true := by
  induction l with
  | nil => cases hx
  | cons hd tl ih =>
      simp only [cleanArr, Bool.and_eq_true] at h
      rcases List.mem_cons.mp hx with heq | htl
      · subst heq
        exact ⟨h.1.1, h.1.2⟩
      · exact ih h.2 htl

theorem cleanEntries_append (l1 l2 : List (String × JVal))
    (h1 : cleanEntries l1 = true) (h2 : cleanEntries l2 = true) :
    cleanEntries (l1 ++ l2) = true := by
  induction l1 with
  | nil => exact h2
  | cons hd tl ih =>
      obtain ⟨k, v⟩ := hd
      simp only [cleanEntries, Bool.and_eq_true] at h1 ⊢
      exact ⟨h1.1, ih h1.2⟩

theorem jget_clean (d : List (String × JVal)) (k : String) (v : JVal)
    (hd : cleanEntries d = true) (h : jget d k = some v) : cleanJ v = true := by
  induction d with
  | nil => simp [jget] at h
  | cons hd2 tl ih =>
      obtain ⟨k2, v2⟩ := hd2
      simp only [cleanEntries, Bool.and_eq_true] at hd
      simp only [jget, List.find?] at h
      cases hb : (k2 == k)
      · rw [hb] at h
        exact ih hd.2 (by simpa [jget] using h)
      · rw [hb] at h
        simp only [Option.some.injEq] at h
        rw [← h]
        exact hd.1.2

theorem jget_noBadPair (d : List (String × JVal)) (k : String) (v : JVal)
    (hd : noBadPairEntries d = true) (h : jget d k = some v) :
    noBadPair v = true := by
  induction d with
  | nil => simp [jget] at h
  | cons hd2 tl ih =>
      obtain ⟨k2, v2⟩ := hd2
      simp only [noBadPairEntries, Bool.and_eq_true] at hd
      simp only [jget, List.find?] at h
      cases hb : (k2 == k)
      · rw [hb] at h
        exact ih hd.2 (by simpa [jget] using h)
      · rw [hb] at h
        simp only [Option.some.injEq] at h
        rw [← h]
        exact hd.1

theorem cleanEntries_filter (l : List (String × JVal)) (p : String × JVal → Bool)
    (h : cleanEntries l = true) : cleanEntries (l.filter p) = true := by
  induction l with
  | nil => rfl
  | cons hd tl ih =>
      obtain ⟨k, v⟩ := hd
      simp only [cleanEntries, Bool.and_eq_true] at h
      rw [List.filter_cons]
      cases hp : p (k, v)
      · simp only [Bool.false_eq_true, if_false]
        exact ih h.2
      · simp only [if_true]
        simp only [cleanEntries, Bool.and_eq_true]
        exact ⟨h.1, ih h.2⟩

theorem cleanEntries_dictUpdate (d1 d2 : List (String × JVal))
    (h1 : cleanEntries d1 = true) (h2 : cleanEntries d2 = true) :
    cleanEntries (dictUpdate d1 d2) = true := by
  unfold dictUpdate
  apply cleanEntries_append
  · induction d1 with
    | nil => rfl
    | cons hd tl ih =>
        obtain ⟨k, v⟩ := hd
        simp only [cleanEntries, Bool.and_eq_true] at h1
        simp only [List.map_cons, cleanEntries, Bool.and_eq_true]
        refine ⟨⟨h1.1.1, ?_⟩, ih h1.2⟩
        cases hg : jget d2 k with
        | none => simp only [hg, Option.getD_none]; exact h1.1.2
        | some w =>
            simp only [hg, Option.getD_some]
            exact jget_clean d2 k w h2 hg
  · exact cleanEntries_filter d2 _ h2

theorem cleanEntries_setKey (l : List (String × JVal)) (k : String) (v : JVal)
    (hl : cleanEntries l = true) (hk : (k == "$ref" || k == "$defs") = false)
    (hv : cleanJ v = true) : cleanEntries (setKey l k v) = true := by
  induction l with
  | nil => simp [setKey, cleanEntries, hk, hv]
  | cons hd tl ih =>
      obtain ⟨k2, v2⟩ := hd
      simp only [cleanEntries, Bool.and_eq_true] at hl
      simp only [setKey]
      cases hb : (k2 == k)
      · simp only [Bool.false_eq_true, if_false]
        simp only [cleanEntries, Bool.and_eq_true]
        exact ⟨hl.1, ih hl.2⟩
      · simp only [if_true]
        simp only [cleanEntries, Bool.and_eq_true]
        refine ⟨⟨?_, hv⟩, hl.2⟩
        rw [hk]
        rfl

theorem cleanEntries_setDefault (l : List (String × JVal)) (k : String) (v : JVal)
    (hl : cleanEntries l = true) (hk : (k == "$ref" || k == "$defs") = false)
    (hv : cleanJ v = true) : cleanEntries (setDefault l k v) = true := by
  unfold setDefault
  cases hh : hasKey l k
  · simp only [Bool.false_eq_true, if_false]
    apply cleanEntries_append l [(k, v)] hl
    simp [cleanEntries, hk, hv]
  · simp only [if_true]
    exact hl

theorem single_char_key_ok (c : Char) :
    ((String.mk [c] == "$ref") || (String.mk [c] == "$defs")) = false := by
  have h1 : String.mk [c] ≠ "$ref" := by
    intro hc
    have h2 := congrArg String.length hc
    rw [show (String.mk [c]).length = 1 from rfl] at h2
    exact absurd h2 (by decide)
  have h2 : String.mk [c] ≠ "$defs" := by
    intro hc
    have h3 := congrArg String.length hc
    rw [show (String.mk [c]).length = 1 from rfl] at h3
    exact absurd h3 (by decide)
  have hb1 : (String.mk [c] == "$ref") = false := by
    cases hb : (String.mk [c] == "$ref")
    · rfl
    · exact absurd (by simpa using hb) h1
  have hb2 : (String.mk [c] == "$defs") = false := by
    cases hb : (String.mk [c] == "$defs")
    · rfl
    · exact absurd (by simpa using hb) h2
  rw [hb1, hb2]
  rfl

theorem pyPair_clean (x : JVal) (kv : String × JVal)
    (hshape : notBadPairShape x = true) (hx : cleanJ x = true)
    (h : pyPair x = .ok kv) :
    (kv.1 == "$ref" || kv.1 == "$defs") = false ∧ cleanJ kv.2 = true := by
  cases x with
  | null => simp [pyPair] at h
  | bool b => simp [pyPair] at h
  | num n => simp [pyPair] at h
  | str s =>
      cases hdata : s.data with
      | nil => simp [pyPair, hdata] at h
      | cons c1 t1 =>
          cases t1 with
          | nil => simp [pyPair, hdata] at h
          | cons c2 t2 =>
              cases t2 with
              | nil =>
                  simp only [pyPair, hdata, Except.ok.injEq] at h
                  rw [← h]
                  exact ⟨single_char_key_ok c1, rfl⟩
              | cons c3 t3 => simp [pyPair, hdata] at h
  | obj kvs =>
      cases kvs with
      | nil => simp [pyPair] at h
      | cons a rest =>
          cases rest with
          | nil => simp [pyPair] at h
          | cons b rest2 =>
              cases rest2 with
              | nil =>
                  simp only [pyPair, Except.ok.injEq] at h
                  rw [← h]
                  simp only [cleanJ, cleanEntries, Bool.and_eq_true] at hx
                  exact ⟨by simpa using hx.1.1, rfl⟩
              | cons d rest3 => simp [pyPair] at h
  | arr xs =>
      cases xs with
      | nil => simp [pyPair] at h
      | cons a rest =>
          cases rest with
          | nil => simp [pyPair] at h
          | cons b rest2 =>
              cases rest2 with
              | cons d rest3 => simp [pyPair] at h
              | nil =>
                  cases a with
                  | str s =>
                      simp only [pyPair, Except.ok.injEq] at h
                      rw [← h]
                      constructor
                      · simp only [notBadPairShape] at hshape
                        cases hb : ((s == "$ref") || (s == "$defs"))
                        · rfl
                        · rw [hb] at hshape
                          cases hshape
                      · simp only [cleanJ, cleanArr, Bool.and_eq_true] at hx
                        exact hx.2.1.2
                  | null => simp [pyPair] at h
                  | bool bb => simp [pyPair] at h
                  | num nn => simp [pyPair] at h
                  | arr aa => simp [pyPair] at h
                  | obj oo => simp [pyPair] at h

theorem pyPairs_clean (xs : List JVal) (pairs : List (String × JVal))
    (hxs : cleanArr xs = true) (h : pyPairs xs = .ok pairs) :
    ∀ p ∈ pairs, ((p.1 == "$ref" || p.1 == "$defs") = false ∧ cleanJ p.2 = true) := by
  induction xs generalizing pairs with
  | nil =>
      simp only [pyPairs, Except.ok.injEq] at h
      rw [← h]
      intro p hp
      cases hp
  | cons x rest ih =>
      simp only [cleanArr, Bool.and_eq_true] at hxs
      cases hp1 : pyPair x with
      | error e =>
          simp only [pyPairs, hp1] at h
          exact Except.noConfusion h
      | ok kv =>
          cases hp2 : pyPairs rest with
          | error e =>
              simp only [pyPairs, hp1, hp2] at h
              exact Except.noConfusion h
          | ok kvs =>
              simp only [pyPairs, hp1, hp2, Except.ok.injEq] at h
              rw [← h]
              intro p hp
              rcases List.mem_cons.mp hp with heq | htl
              · subst heq
                exact pyPair_clean x p hxs.1.1 hxs.1.2 hp1
              · exact ih kvs hxs.2 hp2 p htl

theorem foldl_setKey_clean (pairs : List (String × JVal))
    (acc : List (String × JVal)) (hacc : cleanEntries acc = true)
    (hp : ∀ p ∈ pairs, ((p.1 == "$ref" || p.1 == "$defs") = false ∧ cleanJ p.2 = true)) :
    cleanEntries (List.foldl (fun acc kv => setKey acc kv.1 kv.2) acc pairs) = true := by
  induction pairs generalizing acc with
  | nil => exact hacc
  | cons pr rest ih =>
      simp only [List.foldl_cons]
      apply ih
      · exact cleanEntries_setKey acc pr.1 pr.2 hacc
          (hp pr (List.mem_cons_self _ _)).1 (hp pr (List.mem_cons_self _ _)).2
      · intro p hp2
        exact hp p (List.mem_cons_of_mem _ hp2)

theorem foldl_setDefault_clean (pairs : List (String × JVal))
    (acc : List (String × JVal)) (hacc : cleanEntries acc = true)
    (hp : ∀ p ∈ pairs, ((p.1 == "$ref" || p.1 == "$defs") = false ∧ cleanJ p.2 = true)) :
    cleanEntries (List.foldl (fun acc kv => setDefault acc kv.1 kv.2) acc pairs) = true := by
  induction pairs generalizing acc with
  | nil => exact hacc
  | cons pr rest ih =>
      simp only [List.foldl_cons]
      apply ih
      · exact cleanEntries_setDefault acc pr.1 pr.2 hacc
          (hp pr (List.mem_cons_self _ _)).1 (hp pr (List.mem_cons_self _ _)).2
      · intro p hp2
        exact hp p (List.mem_cons_of_mem _ hp2)

theorem pyDict_clean (x : JVal) (d : List (String × JVal))
    (hx : cleanJ x = true) (h : pyDict x = .ok d) : cleanEntries d = true := by
  cases x with
  | obj kvs =>
      simp only [pyDict, Except.ok.injEq] at h
      rw [← h]
      exact hx
  | str s =>
      simp only [pyDict] at h
      cases hb : (s == "")
      · rw [hb] at h
        simp at h
      · rw [hb] at h
        simp only [if_true] at h
        simp only [Except.ok.injEq] at h
        rw [← h]
        rfl
  | arr xs =>
      cases hp : pyPairs xs with
      | error e =>
          simp only [pyDict, hp] at h
          exact Except.noConfusion h
      | ok pairs =>
          simp only [pyDict, hp, Except.ok.injEq] at h
          rw [← h]
          exact foldl_setKey_clean pairs [] rfl (pyPairs_clean xs pairs hx hp)
  | null => simp [pyDict] at h
  | bool b => simp [pyDict] at h
  | num n => simp [pyDict] at h

theorem cleanEntries_mem (l : List (String × JVal)) (p : String × JVal)
    (hl : cleanEntries l = true) (hp : p ∈ l) :
    (p.1 == "$ref" || p.1 == "$defs") = false ∧ cleanJ p.2 = true := by
  induction l with
  | nil => cases hp
  | cons hd tl ih =>
      obtain ⟨k, v⟩ := hd
      simp only [cleanEntries, Bool.and_eq_true] at hl
      rcases List.mem_cons.mp hp with heq | htl
      · subst heq
        refine ⟨?_, hl.1.2⟩
        cases hb : ((k == "$ref") || (k == "$defs"))
        · rfl
        · rw [hb] at hl
          obtain ⟨⟨h1, _⟩, _⟩ := hl
          cases h1
      · exact ih hl.2 htl

theorem map_setDefaults_cleanArr (options : List JVal) (tr : List (String × JVal))
    (hopts : cleanArr options = true)
    (htr : ∀ p ∈ tr, ((p.1 == "$ref" || p.1 == "$defs") = false ∧ cleanJ p.2 = true)) :
    cleanArr (options.map (fun o =>
      match o with
      | .obj okvs =>
          JVal.obj (tr.foldl (fun acc kv => setDefault acc kv.1 kv.2) okvs)
      | _ => o)) = true := by
  induction options with
  | nil => rfl
  | cons o rest ih =>
      simp only [cleanArr, Bool.and_eq_true] at hopts
      simp only [List.map_cons, cleanArr, Bool.and_eq_true]
      refine ⟨⟨?_, ?_⟩, ih hopts.2⟩
      · cases o with
        | obj okvs => rfl
        | null => exact hopts.1.1
        | bool b => exact hopts.1.1
        | num n => exact hopts.1.1
        | str s => exact hopts.1.1
        | arr xs => exact hopts.1.1
      · cases o with
        | obj okvs => exact foldl_setDefault_clean tr okvs hopts.1.2 htr
        | null => exact hopts.1.2
        | bool b => exact hopts.1.2
        | num n => exact hopts.1.2
        | str s => exact hopts.1.2
        | arr xs => exact hopts.1.2

theorem normalize_obj (kvs : List (String × JVal)) (r : JVal)
    (h : normalize_any_of kvs = .ok r) : ∃ es, r = .obj es := by
  unfold normalize_any_of at h
  simp only [] at h
  split at h
  · split at h
    · split at h
      · split at h
        · exact Except.noConfusion h
        · exact ⟨_, (Except.ok.inj h).symm⟩
      · exact Except.noConfusion h
    · exact ⟨_, (Except.ok.inj h).symm⟩
  · exact ⟨_, (Except.ok.inj h).symm⟩

theorem normalize_clean (kvs : List (String × JVal)) (r : JVal)
    (hkvs : cleanEntries kvs = true) (h : normalize_any_of kvs = .ok r) :
    cleanJ r = true := by
  have hAval : cleanJ ((jget kvs "anyOf").getD .null) = true := by
    cases hg : jget kvs "anyOf" with
    | none => rfl
    | some v => simpa using jget_clean kvs "anyOf" v hkvs hg
  have htr : ∀ p ∈ (kvs.filter (fun kv => !(kv.1 == "anyOf"))).filter
      (fun kv => kv.1 == "title" || kv.1 == "description"),
      ((p.1 == "$ref" || p.1 == "$defs") = false ∧ cleanJ p.2 = true) := by
    intro p hp
    exact cleanEntries_mem kvs p hkvs
      (List.mem_of_mem_filter (List.mem_of_mem_filter hp))
  unfold normalize_any_of at h
  cases hA : (jget kvs "anyOf").getD .null with
  | arr options =>
      rw [hA] at hAval
      have hopts : cleanArr options = true := hAval
      rw [hA] at h
      simp only [] at h
      split at h
      · split at h
        next o heq =>
          split at h
          · exact Except.noConfusion h
          next merged hpd =>
            rw [← Except.ok.inj h]
            have ho : o ∈ options := by
              apply List.mem_of_mem_filter (p := fun o => !isNullOption o)
              rw [heq]
              exact List.mem_cons_self _ _
            have hoc := (cleanArr_mem options o hopts ho).2
            show cleanEntries _ = true
            apply cleanEntries_setKey
            · apply cleanEntries_dictUpdate
              · exact pyDict_clean o merged hoc hpd
              · exact cleanEntries_filter _ _ (cleanEntries_filter _ _ hkvs)
            · rfl
            · rfl
        next hne =>
          exact Except.noConfusion h
      · rw [← Except.ok.inj h]
        show cleanEntries _ = true
        simp only [cleanEntries, Bool.and_eq_true]
        refine ⟨⟨by decide, ?_⟩, trivial⟩
        exact map_setDefaults_cleanArr options _ hopts htr
  | null =>
      rw [hA] at h
      rw [← Except.ok.inj h]
      rfl
  | bool b =>
      rw [hA] at h
      rw [← Except.ok.inj h]
      rfl
  | num n =>
      rw [hA] at h
      rw [← Except.ok.inj h]
      rfl
  | str s =>
      rw [hA] at h
      rw [← Except.ok.inj h]
      rfl
  | obj kvs2 =>
      rw [hA] at hAval
      rw [hA] at h
      rw [← Except.ok.inj h]
      show cleanEntries _ = true
      simp only [cleanEntries, Bool.and_eq_true]
      exact ⟨⟨by decide, hAval⟩, trivial⟩

theorem mergeStep_obj (base : JVal) (resolved : List (String × JVal)) (r : JVal)
    (h : mergeStep base resolved = .ok r) : ∃ es, r = .obj es := by
  unfold mergeStep at h
  split at h
  · split at h
    · exact Except.noConfusion h
    · simp only [] at h
      split at h
      · exact normalize_obj _ _ h
      · exact ⟨_, (Except.ok.inj h).symm⟩
  · split at h
    · exact normalize_obj _ _ h
    · exact ⟨_, (Except.ok.inj h).symm⟩

theorem mergeStep_clean (base : JVal) (resolved : List (String × JVal)) (r : JVal)
    (hb : cleanJ base = true) (hres : cleanEntries resolved = true)
    (h : mergeStep base resolved = .ok r) : cleanJ r = true := by
  unfold mergeStep at h
  split at h
  · split at h
    · exact Except.noConfusion h
    next baseEntries heq =>
      have hbe := pyDict_clean base baseEntries hb heq
      have hmerged := cleanEntries_dictUpdate baseEntries resolved hbe hres
      simp only [] at h
      split at h
      · exact normalize_clean _ _ hmerged h
      · rw [← Except.ok.inj h]
        exact hmerged
  · split at h
    · exact normalize_clean _ _ hres h
    · rw [← Except.ok.inj h]
      exact hres

theorem resolveItems_length (defs : JVal) (R : List String) (xs ys : List JVal)
    (h : resolveItems defs R xs = .ok ys) : ys.length = xs.length := by
  induction xs generalizing ys with
  | nil =>
      rw [resolveItems_nil_eq] at h
      rw [← Except.ok.inj h]
  | cons x rest ih =>
      rw [resolveItems_cons_eq] at h
      split at h
      · exact Except.noConfusion h
      next y hy =>
        split at h
        · exact Except.noConfusion h
        next ys0 hys0 =>
          rw [← Except.ok.inj h]
          simp only [List.length_cons, ih ys0 hys0]

theorem resolveNode_obj_result (defs : JVal) (R : List String)
    (kvs : List (String × JVal)) (r : JVal)
    (h : resolveNode defs R (.obj kvs) = .ok r) : ∃ es, r = .obj es := by
  cases hD : refDecision defs R kvs with
  | err e =>
      rw [resolveNode_obj_err defs R kvs e hD] at h
      exact Except.noConfusion h
  | nobase =>
      rw [resolveNode_obj_nobase defs R kvs hD] at h
      split at h
      · exact Except.noConfusion h
      · exact mergeStep_obj _ _ _ h
  | recurse k dv =>
      rw [resolveNode_obj_recurse defs R kvs k dv hD] at h
      split at h
      · exact Except.noConfusion h
      · split at h
        · exact Except.noConfusion h
        · exact mergeStep_obj _ _ _ h

theorem resolveNode_arr_result (defs : JVal) (R : List String) (xs : List JVal)
    (r : JVal) (h : resolveNode defs R (.arr xs) = .ok r) :
    ∃ ys, r = .arr ys ∧ resolveItems defs R xs = .ok ys := by
  rw [resolveNode_arr_eq] at h
  split at h
  · exact Except.noConfusion h
  next ys hys =>
    exact ⟨ys, (Except.ok.inj h).symm, hys⟩

theorem resolveNode_str_inv (defs : JVal) (R : List String) (node r : JVal)
    (s : String) (h : resolveNode defs R node = .ok r) (hr : r = .str s) :
    node = .str s := by
  cases node with
  | str s2 =>
      rw [resolveNode_str_eq] at h
      have h2 := (Except.ok.inj h).trans hr
      rw [h2]
  | obj kvs =>
      obtain ⟨es, he⟩ := resolveNode_obj_result defs R kvs r h
      rw [he] at hr
      cases hr
  | arr xs =>
      obtain ⟨ys, he, _⟩ := resolveNode_arr_result defs R xs r h
      rw [he] at hr
      cases hr
  | null =>
      rw [resolveNode_null_eq] at h
      have h2 := (Except.ok.inj h).trans hr
      cases h2
  | bool b =>
      rw [resolveNode_bool_eq] at h
      have h2 := (Except.ok.inj h).trans hr
      cases h2
  | num n =>
      rw [resolveNode_num_eq] at h
      have h2 := (Except.ok.inj h).trans hr
      cases h2

theorem resolveNode_shape (defs : JVal) (R : List String) (x y : JVal)
    (h : resolveNode defs R x = .ok y) (hx : notBadPairShape x = true) :
    notBadPairShape y = true := by
  cases x with
  | obj kvs =>
      obtain ⟨es, he⟩ := resolveNode_obj_result defs R kvs y h
      rw [he]
      rfl
  | null =>
      rw [resolveNode_null_eq] at h
      rw [← Except.ok.inj h]
      rfl
  | bool b =>
      rw [resolveNode_bool_eq] at h
      rw [← Except.ok.inj h]
      rfl
  | num n =>
      rw [resolveNode_num_eq] at h
      rw [← Except.ok.inj h]
      rfl
  | str s =>
      rw [resolveNode_str_eq] at h
      rw [← Except.ok.inj h]
      rfl
  | arr xs =>
      obtain ⟨ys, he, hitems⟩ := resolveNode_arr_result defs R xs y h
      rw [he]
      cases ys with
      | nil => rfl
      | cons y1 t =>
          cases t with
          | nil => rfl
          | cons y2 t2 =>
              cases t2 with
              | cons y3 t3 => rfl
              | nil =>
                  cases hy1 : y1 with
                  | str s =>
                      cases xs with
                      | nil =>
                          rw [resolveItems_nil_eq] at hitems
                          cases Except.ok.inj hitems
                      | cons x1 xt =>
                          rw [resolveItems_cons_eq] at hitems
                          split at hitems
                          · exact Except.noConfusion hitems
                          next y0 hy0 =>
                            split at hitems
                            · exact Except.noConfusion hitems
                            next ys0 hys0 =>
                              have hinj := Except.ok.inj hitems
                              have hy0y1 : y0 = y1 := (List.cons.inj hinj).1
                              have hys0y2 : ys0 = [y2] := (List.cons.inj hinj).2
                              have hx1 : x1 = .str s := by
                                apply resolveNode_str_inv defs R x1 y0 s hy0
                                rw [hy0y1, hy1]
                              have hxt : xt.length = 1 := by
                                have := resolveItems_length defs R xt ys0 hys0
                                rw [hys0y2] at this
                                exact this.symm
                              cases xt with
                              | nil => cases hxt
                              | cons x2 xtt =>
                                  cases xtt with
                                  | cons x3 xttt => cases hxt
                                  | nil =>
                                      rw [hx1] at hx
                                      simp only [notBadPairShape] at hx ⊢
                                      exact hx
                  | null => rfl
                  | bool b => rfl
                  | num n => rfl
                  | arr a => rfl
                  | obj o => rfl

theorem refDecision_recurse_indexJ (defs : JVal) (R : List String)
    (kvs : List (String × JVal)) (k : String) (dv : JVal)
    (h : refDecision defs R kvs = .recurse k dv) : indexJ defs k = .ok dv := by
  cases hg : jget kvs "$ref" with
  | none => simp [refDecision, hg] at h
  | some rv =>
      cases ht : truthy rv with
      | false => simp [refDecision, hg, ht] at h
      | true =>
          cases rv with
          | null => simp [truthy] at ht
          | bool b => simp [refDecision, hg, ht] at h
          | num n => simp [refDecision, hg, ht] at h
          | arr a => simp [refDecision, hg, ht] at h
          | obj o => simp [refDecision, hg, ht] at h
          | str s =>
              cases hs : listPrefix ("#/$defs/".data) s.data with
              | false => simp [refDecision, hg, ht, hs] at h
              | true =>
                  cases hc : R.contains (lastComponent s) with
                  | true =>
                      have hmem : lastComponent s ∈ R := by simpa using hc
                      simp [refDecision, hg, ht, hs, hmem] at h
                  | false =>
                      have hmem : ¬(lastComponent s ∈ R) := by simpa using hc
                      cases hm : memTest defs (lastComponent s) with
                      | error e => simp [refDecision, hg, ht, hs, hmem, hm] at h
                      | ok b =>
                          cases b with
                          | false => simp [refDecision, hg, ht, hs, hmem, hm] at h
                          | true =>
                              cases hi : indexJ defs (lastComponent s) with
                              | error e =>
                                  simp [refDecision, hg, ht, hs, hmem, hm, hi] at h
                              | ok dv2 =>
                                  simp only [refDecision, hg, ht, hs, hm, hi,
                                    if_true] at h
                                  rw [hc] at h
                                  simp only [Bool.false_eq_true, if_false] at h
                                  obtain ⟨hk, hdv⟩ := RefStep.recurse.inj h
                                  rw [← hk, ← hdv]
                                  exact hi

theorem indexJ_noBadPair (defs : JVal) (k : String) (dv : JVal)
    (hdefs : noBadPair defs = true) (h : indexJ defs k = .ok dv) :
    noBadPair dv = true := by
  cases defs with
  | obj dkvs =>
      simp only [indexJ] at h
      cases hj : jget dkvs k with
      | none => rw [hj] at h; exact Except.noConfusion h
      | some v =>
          rw [hj] at h
          simp only [Except.ok.injEq] at h
          rw [← h]
          exact jget_noBadPair dkvs k v hdefs hj
  | null => simp [indexJ] at h
  | bool b => simp [indexJ] at h
  | num n => simp [indexJ] at h
  | str s => simp [indexJ] at h
  | arr a => simp [indexJ] at h

theorem resolveEntries_cons_skip2 (defs : JVal) (R : List String)
    (kv : String × JVal) (rest : List (String × JVal))
    (hk : (kv.1 == "$defs" || kv.1 == "$ref") = true) :
    resolveEntries defs R (kv :: rest) = resolveEntries defs R rest := by
  obtain ⟨k, v⟩ := kv
  exact resolveEntries_cons_skip defs R k v rest hk

theorem resolveEntries_cons_keep2 (defs : JVal) (R : List String)
    (kv : String × JVal) (rest : List (String × JVal))
    (hk : (kv.1 == "$defs" || kv.1 == "$ref") = false) :
    resolveEntries defs R (kv :: rest) =
      (match resolveNode defs R kv.2 with
       | .error e => .error e
       | .ok v2 =>
           match resolveEntries defs R rest with
           | .error e => .error e
           | .ok rest2 => .ok ((kv.1, v2) :: rest2)) := by
  obtain ⟨k, v⟩ := kv
  exact resolveEntries_cons_keep defs R k v rest hk

mutual

theorem resolveNode_clean (defs : JVal) (R : List String) (node : JVal)
    (hdefs : noBadPair defs = true) (hnode : noBadPair node = true)
    (r : JVal) (h : resolveNode defs R node = .ok r) : cleanJ r = true := by
  cases node with
  | obj kvs =>
      cases hD : refDecision defs R kvs with
      | err e =>
          rw [resolveNode_obj_err defs R kvs e hD] at h
          exact Except.noConfusion h
      | nobase =>
          rw [resolveNode_obj_nobase defs R kvs hD] at h
          split at h
          · exact Except.noConfusion h
          next resolved hres =>
            exact mergeStep_clean (JVal.obj []) resolved r rfl
              (resolveEntries_clean defs R kvs hdefs hnode resolved hres) h
      | recurse k dv =>
          rw [resolveNode_obj_recurse defs R kvs k dv hD] at h
          split at h
          · exact Except.noConfusion h
          next base hbase =>
            split at h
            · exact Except.noConfusion h
            next resolved hres =>
              have hdv : noBadPair dv = true :=
                indexJ_noBadPair defs k dv hdefs
                  (refDecision_recurse_indexJ defs R kvs k dv hD)
              exact mergeStep_clean base resolved r
                (resolveNode_clean defs (k :: R) dv hdefs hdv base hbase)
                (resolveEntries_clean defs R kvs hdefs hnode resolved hres) h
  | arr xs =>
      obtain ⟨ys, hy, hitems⟩ := resolveNode_arr_result defs R xs r h
      rw [hy]
      exact resolveItems_clean defs R xs hdefs hnode ys hitems
  | null =>
      rw [resolveNode_null_eq] at h
      rw [← Except.ok.inj h]
      rfl
  | bool b =>
      rw [resolveNode_bool_eq] at h
      rw [← Except.ok.inj h]
      rfl
  | num n =>
      rw [resolveNode_num_eq] at h
      rw [← Except.ok.inj h]
      rfl
  | str s =>
      rw [resolveNode_str_eq] at h
      rw [← Except.ok.inj h]
      rfl
termination_by (defsOut defs R, sizeOf node)
decreasing_by
  all_goals simp_wf
  all_goals subst_vars
  all_goals first
    | exact Prod.Lex.left _ _ (refDecision_recurse_lt _ _ _ _ _ (by assumption))
    | exact refDecision_recurse_lt _ _ _ _ _ (by assumption)
    | decreasing_tactic

theorem resolveEntries_clean (defs : JVal) (R : List String)
    (kvs : List (String × JVal)) (hdefs : noBadPair defs = true)
    (hkvs : noBadPairEntries kvs = true)
    (out : List (String × JVal)) (h : resolveEntries defs R kvs = .ok out) :
    cleanEntries out = true := by
  cases kvs with
  | nil =>
      rw [resolveEntries_nil_eq] at h
      rw [← Except.ok.inj h]
      rfl
  | cons kv rest =>
      have hkvs2 : noBadPair kv.2 = true ∧ noBadPairEntries rest = true := by
        simpa [noBadPairEntries] using hkvs
      cases hsk : (kv.1 == "$defs" || kv.1 == "$ref") with
      | true =>
          rw [resolveEntries_cons_skip2 defs R kv rest hsk] at h
          exact resolveEntries_clean defs R rest hdefs hkvs2.2 out h
      | false =>
          rw [resolveEntries_cons_keep2 defs R kv rest hsk] at h
          split at h
          · exact Except.noConfusion h
          next v2 hv2 =>
            split at h
            · exact Except.noConfusion h
            next rest2 hrest2 =>
              rw [← Except.ok.inj h]
              have hks : (kv.1 == "$defs") = false ∧ (kv.1 == "$ref") = false := by
                cases hd : (kv.1 == "$defs") <;> cases hr : (kv.1 == "$ref") <;>
                  simp_all
              simp only [cleanEntries, Bool.and_eq_true]
              refine ⟨⟨?_, resolveNode_clean defs R kv.2 hdefs hkvs2.1 v2 hv2⟩,
                resolveEntries_clean defs R rest hdefs hkvs2.2 rest2 hrest2⟩
              rw [hks.1, hks.2]
              rfl
termination_by (defsOut defs R, sizeOf kvs)
decreasing_by
  all_goals simp_wf
  all_goals subst_vars
  all_goals first
    | decreasing_tactic
    | (apply Prod.Lex.right
       cases kv
       simp only [Prod.mk.sizeOf_spec, List.cons.sizeOf_spec]
       omega)

theorem resolveItems_clean (defs : JVal) (R : List String) (xs : List JVal)
    (hdefs : noBadPair defs = true) (hxs : noBadPairArr xs = true)
    (ys : List JVal) (h : resolveItems defs R xs = .ok ys) :
    cleanArr ys = true := by
  cases xs with
  | nil =>
      rw [resolveItems_nil_eq] at h
      rw [← Except.ok.inj h]
      rfl
  | cons x rest =>
      have hx3 : (notBadPairShape x = true ∧ noBadPair x = true) ∧
          noBadPairArr rest = true := by
        simpa [noBadPairArr, Bool.and_eq_true] using hxs
      rw [resolveItems_cons_eq] at h
      split at h
      · exact Except.noConfusion h
      next y hy =>
        split at h
        · exact Except.noConfusion h
        next ys0 hys0 =>
          rw [← Except.ok.inj h]
          simp only [cleanArr, Bool.and_eq_true]
          exact ⟨⟨resolveNode_shape defs R x y hy hx3.1.1,
                  resolveNode_clean defs R x hdefs hx3.1.2 y hy⟩,
                 resolveItems_clean defs R rest hdefs hx3.2 ys0 hys0⟩
termination_by (defsOut defs R, sizeOf xs)
decreasing_by
  all_goals simp_wf
  all_goals subst_vars
  all_goals decreasing_tactic

end

theorem resolve_genai_schema_obj_inv (kvs : List (String × JVal)) (r : JVal)
    (ht : truthy (.obj kvs) = true)
    (h : resolve_genai_schema (.obj kvs) = .ok r) :
    ∃ flattened,
      resolveNode ((jget kvs "$defs").getD (.obj [])) [] (.obj kvs) = .ok flattened ∧
      ((∃ fk, flattened = .obj fk ∧
          r = .obj (fk.filter (fun kv => !(kv.1 == "$defs")))) ∨
       (isObj flattened = false ∧ r = flattened)) := by
  unfold resolve_genai_schema at h
  rw [if_pos ht] at h
  have h2 : (match resolveNode ((jget kvs "$defs").getD (.obj [])) [] (.obj kvs) with
             | .error e => (Except.error e : Except String JVal)
             | .ok flattened =>
                 match flattened with
                 | .obj fk =>
                     Except.ok (JVal.obj (fk.filter (fun kv => !(kv.1 == "$defs"))))
                 | other => Except.ok other) = Except.ok r := h
  split at h2
  · exact Except.noConfusion h2
  next flattened hflat =>
    refine ⟨flattened, hflat, ?_⟩
    cases flattened with
    | obj fk =>
        left
        exact ⟨fk, rfl, (Except.ok.inj h2).symm⟩
    | null => right; exact ⟨rfl, (Except.ok.inj h2).symm⟩
    | bool b => right; exact ⟨rfl, (Except.ok.inj h2).symm⟩
    | num n => right; exact ⟨rfl, (Except.ok.inj h2).symm⟩
    | str s => right; exact ⟨rfl, (Except.ok.inj h2).symm⟩
    | arr xs => right; exact ⟨rfl, (Except.ok.inj h2).symm⟩

/-- C7 (amended): `resolve_genai_schema` terminates on every schema —
the resolution recursion is well-founded thanks to the resolving-set
cycle guard (a ref whose key is already being resolved contributes no
base fields instead of recursing), which is what lets `resolveNode` be
defined by well-founded recursion at all — and whenever it returns a
result for a schema that contains no two-element `["$ref"/"$defs", _]`
array literal inside any array (the one shape the anyOf collapse's
`dict()` call can turn into a `$ref`/`$defs` object key), the output
contains no `$ref` and no `$defs` key anywhere. -/
theorem resolver_no_refs_of_no_pair_arrays (j r : JVal)
    (hbad : noBadPair j = true) (h : resolve_genai_schema j = .ok r) :
    cleanJ r = true := by
  cases j with
  | obj kvs =>
      cases htr : truthy (.obj kvs) with
      | false =>
          unfold resolve_genai_schema at h
          rw [htr] at h
          simp only [Bool.false_eq_true, if_false] at h
          rw [← Except.ok.inj h]
          rfl
      | true =>
          obtain ⟨flattened, hflat, hr⟩ := resolve_genai_schema_obj_inv kvs r htr h
          have hdefs : noBadPair ((jget kvs "$defs").getD (.obj [])) = true := by
            cases hg : jget kvs "$defs" with
            | none => rfl
            | some v => simpa using jget_noBadPair kvs "$defs" v hbad hg
          have hclean := resolveNode_clean _ [] (.obj kvs) hdefs hbad flattened hflat
          rcases hr with ⟨fk, hfk, hrr⟩ | ⟨_, hrr⟩
          · rw [hrr]
            rw [hfk] at hclean
            exact cleanEntries_filter fk _ hclean
          · rw [hrr]
            exact hclean
  | null =>
      unfold resolve_genai_schema at h
      rw [← Except.ok.inj h]
      rfl
  | bool b =>
      unfold resolve_genai_schema at h
      cases htr : truthy (.bool b) with
      | false =>
          rw [htr] at h
          simp only [Bool.false_eq_true, if_false] at h
          rw [← Except.ok.inj h]
          rfl
      | true =>
          rw [htr] at h
          rw [if_pos rfl] at h
          have h2 : (Except.error "AttributeError: object has no attribute get"
              : Except String JVal) = Except.ok r := h
          exact Except.noConfusion h2
  | num n =>
      unfold resolve_genai_schema at h
      cases htr : truthy (.num n) with
      | false =>
          rw [htr] at h
          simp only [Bool.false_eq_true, if_false] at h
          rw [← Except.ok.inj h]
          rfl
      | true =>
          rw [htr] at h
          rw [if_pos rfl] at h
          have h2 : (Except.error "AttributeError: object has no attribute get"
              : Except String JVal) = Except.ok r := h
          exact Except.noConfusion h2
  | str s =>
      unfold resolve_genai_schema at h
      cases htr : truthy (.str s) with
      | false =>
          rw [htr] at h
          simp only [Bool.false_eq_true, if_false] at h
          rw [← Except.ok.inj h]
          rfl
      | true =>
          rw [htr] at h
          rw [if_pos rfl] at h
          have h2 : (Except.error "AttributeError: object has no attribute get"
              : Except String JVal) = Except.ok r := h
          exact Except.noConfusion h2
  | arr xs =>
      unfold resolve_genai_schema at h
      cases htr : truthy (.arr xs) with
      | false =>
          rw [htr] at h
          simp only [Bool.false_eq_true, if_false] at h
          rw [← Except.ok.inj h]
          rfl
      | true =>
          rw [htr] at h
          rw [if_pos rfl] at h
          have h2 : (Except.error "AttributeError: object has no attribute get"
              : Except String JVal) = Except.ok r := h
          exact Except.noConfusion h2

/-- C7 witness: the self-referential schema resolves (the cycle guard
yields no base fields for the inner self-ref), and the amended theorem
gives a clean output, also checked concretely. -/
theorem resolver_no_refs_witness :
    noBadPair selfRefSchema = true ∧
    resolve_genai_schema selfRefSchema =
      .ok (.obj [("type", .str "object"), ("title", .str "X")]) ∧
    cleanJ (.obj [("type", .str "object"), ("title", .str "X")]) = true := by
  have hnode : resolveNode
      (.obj [("a", .obj [("$ref", .str "#/$defs/a"), ("type", .str "object")])]) []
      (.obj [("$defs", .obj [("a", .obj [("$ref", .str "#/$defs/a"),
                                         ("type", .str "object")])]),
             ("$ref", .str "#/$defs/a"),
             ("title", .str "X")])
      = .ok (.obj [("type", .str "object"), ("title", .str "X")]) :=
    (resolveF_sound 9).1 _ _ _ _ rfl
  have h2 : resolve_genai_schema selfRefSchema =
      .ok (.obj [("type", .str "object"), ("title", .str "X")]) :=
    resolve_genai_schema_obj_ok_obj
      [("$defs", .obj [("a", .obj [("$ref", .str "#/$defs/a"),
                                   ("type", .str "object")])]),
       ("$ref", .str "#/$defs/a"),
       ("title", .str "X")]
      [("type", .str "object"), ("title", .str "X")] rfl hnode
  exact ⟨rfl, h2,
    resolver_no_refs_of_no_pair_arrays selfRefSchema
      (.obj [("type", .str "object"), ("title", .str "X")]) rfl h2⟩
